import Mathlib

/-!
Shallow embedding of the CourseSelectionTool requirement-resolution engine.

Sources embedded here:
- `src/js/gridManager.js` (class `GridManager`): slot-based grid state,
  `initSemesters`, `addCourse`, `removeCourse`, `moveCourse`, `findCourse`,
  `getCoursesBeforeSemester`, `getCoursesUpToSemester`, `getAllPlacedCourses`.
- `src/js/dependencyGraph.js` as given in full in
  `plans/phase3_dependency_validation_impl.md` (class `DependencyValidator`):
  `parseCourseset`, `parseExpression`, `parseToken`, `validate`,
  `collectLeafCodes`, `validatePlacement`, `validateAll`.

Modelling conventions:
- JS object-keyed maps become insertion-ordered association lists; JS `Set`
  becomes an insertion-ordered duplicate-free `List String` (`setAdd`).
- A course slot is `Option String` (`none` is the JS `null` slot value); the
  JS truthiness test `if (code)` is `truthyStr`, which also rejects `""`.
- A thrown JS exception (e.g. the `TypeError` from reading `.type` of `null`
  in `collectLeafCodes`, or indexing a missing semester id) is the `none`
  value of an `Option`-returning function.
- `parseCourseset` recurses through courseset references with no cycle
  guard; the embedding adds an explicit fuel parameter, and exhausted fuel
  is `none`.  The memoization cache (`treeCache`) is omitted: it is written
  only after a parse completes, so it never changes any parse result.
- Grid mutators return the updated state; calls whose JS counterpart throws
  before mutating return `none`.
-/

namespace CourseTool

/-! ## Grid state (`gridManager.js`) -/

abbrev Slots := List (Option String)

abbrev GridState := List (String × Slots)

def slotsPerSemester : Nat := 5

def lookupSem (st : GridState) (semId : String) : Option Slots :=
  (st.find? (fun p => p.1 == semId)).map (fun p => p.2)

def setSem (st : GridState) (semId : String) (slots : Slots) : GridState :=
  st.map (fun p => if p.1 == semId then (p.1, slots) else p)

def slotValue (st : GridState) (semId : String) (i : Nat) : Option (Option String) :=
  (lookupSem st semId).bind (fun slots => slots[i]?)

def initSemesters (ids : List String) : GridState :=
  ids.map (fun id => (id, List.replicate slotsPerSemester none))

def findCourse (st : GridState) (code : String) : Option (String × Nat) :=
  match st with
  | [] => none
  | (semId, slots) :: rest =>
    match slots.findIdx? (fun v => v == some code) with
    | some i => some (semId, i)
    | none => findCourse rest code

def addCourse (st : GridState) (semId : String) (slot : Nat) (code : String) :
    Option (Bool × GridState) :=
  if (findCourse st code).isSome then some (false, st)
  else
    match lookupSem st semId with
    | none => none
    | some slots =>
      if slots[slot]? != some none then some (false, st)
      else some (true, setSem st semId (slots.set slot (some code)))

def removeCourse (st : GridState) (semId : String) (slot : Nat) : Option GridState :=
  match lookupSem st semId with
  | none => none
  | some slots => some (setSem st semId (slots.set slot none))

def moveCourse (st : GridState) (fromSem : String) (fromSlot : Nat)
    (toSem : String) (toSlot : Nat) : Option GridState :=
  match lookupSem st fromSem with
  | none => none
  | some fromSlots =>
    let code := fromSlots.getD fromSlot none
    let st1 := setSem st fromSem (fromSlots.set fromSlot none)
    match lookupSem st1 toSem with
    | none => none
    | some toSlots => some (setSem st1 toSem (toSlots.set toSlot code))

/-- JS truthiness of a slot value / requirement-id field: `null`
(= `none`) and the empty string are falsy. -/
def truthyStr : Option String → Option String
  | some s => if s = "" then none else some s
  | none => none

/-- JS `Set.add`: append if not already present (insertion order kept). -/
def setAdd (acc : List String) (c : String) : List String :=
  if acc.contains c then acc else acc ++ [c]

/-- One semester row of `for (const code of slots) if (code) completed.add(code)`. -/
def addSlots (acc : List String) : Slots → List String
  | [] => acc
  | v :: vs =>
    addSlots (match truthyStr v with
              | some s => setAdd acc s
              | none => acc) vs

/-- The common loop of `getCoursesBeforeSemester` / `getCoursesUpToSemester`:
walk the listed semesters in order, adding every truthy slot code.  A
semester id missing from the grid state is a JS `TypeError` (`none`). -/
def codesInSems (st : GridState) : List String → List String → Option (List String)
  | [], acc => some acc
  | semId :: rest, acc =>
    match lookupSem st semId with
    | none => none
    | some slots => codesInSems st rest (addSlots acc slots)

def getCoursesBeforeSemester (st : GridState) (semId : String)
    (order : List String) : Option (List String) :=
  match order.findIdx? (fun s => s == semId) with
  | none => some []
  | some k => codesInSems st (order.take k) []

def getCoursesUpToSemester (st : GridState) (semId : String)
    (order : List String) : Option (List String) :=
  match order.findIdx? (fun s => s == semId) with
  | none => some []
  | some k => codesInSems st (order.take (k + 1)) []

def allPlacedAux : GridState → List String → List String
  | [], acc => acc
  | (_, slots) :: rest, acc => allPlacedAux rest (addSlots acc slots)

def getAllPlacedCourses (st : GridState) : List String :=
  allPlacedAux st []

/-! ## Expression trees and the requirement evaluator (`dependencyGraph.js`) -/

/-- AST node.  `nullN` embeds the JS `null` tree that `parseCourseset`
returns for an empty/unknown courseset id (and that `parseToken` can
therefore place inside a children array). -/
inductive Node where
  | nullN : Node
  | course (code : String) : Node
  | andN (children : List Node) : Node
  | orN (children : List Node) : Node
deriving Repr, BEq

/-- `MissingInfo`.  The `andM` variant exists in the source's data format
documentation but is never produced by `validate` (AND misses are
flattened). -/
inductive Miss where
  | courseM (code : String) : Miss
  | orM (options : List String) : Miss
  | andM (items : List Miss) : Miss
deriving Repr, BEq

structure VRes where
  satisfied : Bool
  missing : List Miss
deriving Repr, BEq

mutual
/-- `collectLeafCodes(tree)`.  On JS `null` the source reads `null.type`
and throws (`none` here). -/
def collectLeafCodes : Node → Option (List String)
  | .nullN => none
  | .course c => some [c]
  | .andN cs => collectList cs
  | .orN cs => collectList cs

/-- `tree.children.flatMap(c => this.collectLeafCodes(c))` with exception
propagation. -/
def collectList : List Node → Option (List String)
  | [] => some []
  | n :: ns =>
    match collectLeafCodes n, collectList ns with
    | some a, some b => some (a ++ b)
    | _, _ => none
end

mutual
/-- Reference description of the leaf-code concatenation (total; used only
to state what `collectLeafCodes` computes on null-free trees). -/
def specLeafCodes : Node → List String
  | .nullN => []
  | .course c => [c]
  | .andN cs => specLeafList cs
  | .orN cs => specLeafList cs

def specLeafList : List Node → List String
  | [] => []
  | n :: ns => specLeafCodes n ++ specLeafList ns
end

mutual
/-- `validate(completedCourses, tree)`. -/
def validate (completed : List String) : Node → Option VRes
  | .nullN => some ⟨true, []⟩
  | .course c =>
    some (if completed.contains c then ⟨true, []⟩ else ⟨false, [.courseM c]⟩)
  | .orN cs =>
    match anySat completed cs with
    | none => none
    | some true => some ⟨true, []⟩
    | some false =>
      match collectList cs with
      | none => none
      | some opts => some ⟨false, [.orM opts]⟩
  | .andN cs =>
    match andFold completed cs with
    | none => none
    | some (b, ms) => some ⟨b, ms⟩

/-- The OR loop: return on the first satisfied child. -/
def anySat (completed : List String) : List Node → Option Bool
  | [] => some false
  | n :: ns =>
    match validate completed n with
    | none => none
    | some r => if r.satisfied then some true else anySat completed ns

/-- The AND loop: conjoin satisfaction, concatenate misses in child order. -/
def andFold (completed : List String) : List Node → Option (Bool × List Miss)
  | [] => some (true, [])
  | n :: ns =>
    match validate completed n with
    | none => none
    | some r =>
      match andFold completed ns with
      | none => none
      | some (b, ms) =>
        some (r.satisfied && b, (if r.satisfied then [] else r.missing) ++ ms)
end

/-! ## Courseset parser -/

def isUpperAZ (c : Char) : Bool := 'A' ≤ c && c ≤ 'Z'

def isDigit09 (c : Char) : Bool := '0' ≤ c && c ≤ '9'

/-- The courseset-reference test `/^[A-Z]{2,4}\d{3}[HY]\d_[pce]\d+$/`.
Letters and digits are disjoint classes, so the greedy `{2,4}` quantifier
is the maximal uppercase run. -/
def isCoursesetRef (token : String) : Bool :=
  let cs := token.toList
  let letters := cs.takeWhile isUpperAZ
  (decide (2 ≤ letters.length) && decide (letters.length ≤ 4)) &&
    match cs.dropWhile isUpperAZ with
    | d1 :: d2 :: d3 :: hy :: d4 :: '_' :: ty :: ds =>
      isDigit09 d1 && isDigit09 d2 && isDigit09 d3 &&
        (hy == 'H' || hy == 'Y') && isDigit09 d4 &&
        (ty == 'p' || ty == 'c' || ty == 'e') && !ds.isEmpty && ds.all isDigit09
    | _ => false

/-- JS `String.prototype.trim`: drop whitespace from both ends. -/
def trimChars (cs : List Char) : List Char :=
  ((cs.dropWhile Char.isWhitespace).reverse.dropWhile Char.isWhitespace).reverse

def jsTrim (s : String) : String :=
  String.mk (trimChars s.toList)

def consHead (c : Char) : List (List Char) → List (List Char)
  | [] => [[c]]
  | h :: t => (c :: h) :: t

/-- JS `String.split` specialised to a three-character separator: scan left
to right, cutting at each occurrence of `[a, b, c]`. -/
def splitOn3 (a b c : Char) : List Char → List (List Char)
  | x :: y :: z :: rest =>
    if x = a ∧ y = b ∧ z = c then [] :: splitOn3 a b c rest
    else consHead x (splitOn3 a b c (y :: z :: rest))
  | l => [l]

/-- Catalog course record (only the fields the validator reads). -/
structure Course where
  code : String
  prerequisites : Option String
  corequisites : Option String
  exclusions : Option String

/-- Catalog adapter: `db.getCourse(code)` and the raw `courses` expression
string of `db.coursesets[id]`. -/
structure DB where
  getCourse : String → Option Course
  coursesets : String → Option String

/-- `parseToken`, parameterised by the recursive `parseCourseset` call. -/
def parseTokenWith (resolve : String → Option Node) (token : String) : Option Node :=
  if isCoursesetRef token then resolve token else some (.course token)

/-- `parts.map(p => this.parseToken(p))` with fuel-exhaustion propagation. -/
def tokensWith (resolve : String → Option Node) : List String → Option (List Node)
  | [] => some []
  | t :: ts =>
    match parseTokenWith resolve t, tokensWith resolve ts with
    | some n, some ns => some (n :: ns)
    | _, _ => none

/-- `parseExpression`, parameterised by the recursive `parseCourseset` call.
`trimmed.includes(sep)` is equivalent to its split having more than one
part. -/
def parseExpressionWith (resolve : String → Option Node) (expr : String) : Option Node :=
  let trimmed := trimChars expr.toList
  let andParts := splitOn3 ' ' '&' ' ' trimmed
  if andParts.length > 1 then
    (tokensWith resolve (andParts.map (fun p => String.mk (trimChars p)))).map Node.andN
  else
    let orParts := splitOn3 ' ' '/' ' ' trimmed
    if orParts.length > 1 then
      (tokensWith resolve (orParts.map (fun p => String.mk (trimChars p)))).map Node.orN
    else parseTokenWith resolve (String.mk trimmed)

/-- `parseCourseset(setId)` with explicit fuel (the source recursion has no
cycle guard; `none` is exhausted fuel, i.e. non-termination evidence). -/
def parseCourseset (db : DB) : Nat → String → Option Node
  | 0, _ => none
  | fuel + 1, setId =>
    if setId = "" then some .nullN
    else
      match db.coursesets setId with
      | none => some .nullN
      | some raw => parseExpressionWith (fun tok => parseCourseset db fuel tok) raw
termination_by structural fuel _ => fuel

def parseExpression (db : DB) (fuel : Nat) (expr : String) : Option Node :=
  parseExpressionWith (fun tok => parseCourseset db fuel tok) expr

def parseToken (db : DB) (fuel : Nat) (token : String) : Option Node :=
  parseTokenWith (fun tok => parseCourseset db fuel tok) token

/-! ## Placement validation -/

inductive PError where
  | prereq (missing : List Miss) : PError
  | coreq (missing : List Miss) : PError
  | excl (conflicting : List String) : PError
deriving Repr, BEq

structure VPRes where
  valid : Bool
  errors : List PError
deriving Repr, BEq

/-- The prerequisite block of `validatePlacement`. -/
def prereqErrors (db : DB) (fuel : Nat) (course : Course) (grid : GridState)
    (semId : String) (order : List String) : Option (List PError) :=
  match truthyStr course.prerequisites with
  | none => some []
  | some p =>
    match getCoursesBeforeSemester grid semId order with
    | none => none
    | some completed =>
      match parseCourseset db fuel p with
      | none => none
      | some tree =>
        match validate completed tree with
        | none => none
        | some r => some (if r.satisfied then [] else [.prereq r.missing])

/-- The corequisite block of `validatePlacement`. -/
def coreqErrors (db : DB) (fuel : Nat) (course : Course) (grid : GridState)
    (semId : String) (order : List String) : Option (List PError) :=
  match truthyStr course.corequisites with
  | none => some []
  | some p =>
    match getCoursesUpToSemester grid semId order with
    | none => none
    | some completed =>
      match parseCourseset db fuel p with
      | none => none
      | some tree =>
        match validate completed tree with
        | none => none
        | some r => some (if r.satisfied then [] else [.coreq r.missing])

/-- The exclusion block of `validatePlacement`: evaluated over all placed
courses with the course's own code deleted; a satisfied exclusion tree is
the conflict case. -/
def exclErrors (db : DB) (fuel : Nat) (course : Course) (code : String)
    (grid : GridState) : Option (List PError) :=
  match truthyStr course.exclusions with
  | none => some []
  | some x =>
    let allPlaced := (getAllPlacedCourses grid).filter (fun c => c ≠ code)
    match parseCourseset db fuel x with
    | none => none
    | some tree =>
      match validate allPlaced tree with
      | none => none
      | some r =>
        if r.satisfied then
          match collectLeafCodes tree with
          | none => none
          | some leaves => some [.excl (leaves.filter (fun c => allPlaced.contains c))]
        else some []

/-- `validatePlacement(courseCode, semesterId, gridManager, semesterOrder)`.
The code argument is `Option String` because `validateAll` passes raw slot
values, including `null`; `getCourse` of `null` is `undefined`, so the
course is reported valid with no errors. -/
def validatePlacement (db : DB) (fuel : Nat) (code? : Option String)
    (semId : String) (grid : GridState) (order : List String) : Option VPRes :=
  match code? with
  | none => some ⟨true, []⟩
  | some code =>
    match db.getCourse code with
    | none => some ⟨true, []⟩
    | some course =>
      match prereqErrors db fuel course grid semId order with
      | none => none
      | some e1 =>
        match coreqErrors db fuel course grid semId order with
        | none => none
        | some e2 =>
          match exclErrors db fuel course code grid with
          | none => none
          | some e3 =>
            some ⟨(e1 ++ e2 ++ e3).isEmpty, e1 ++ e2 ++ e3⟩

abbrev ResultMap := List (Option String × VPRes)

/-- JS `Map.set`: update in place if the key exists, else append. -/
def mapSet (m : ResultMap) (k : Option String) (v : VPRes) : ResultMap :=
  if m.any (fun p => p.1 == k) then
    m.map (fun p => if p.1 == k then (k, v) else p)
  else m ++ [(k, v)]

def hasKey (m : ResultMap) (k : Option String) : Bool :=
  m.any (fun p => p.1 == k)

def lookupKey (m : ResultMap) (k : Option String) : Option VPRes :=
  (m.find? (fun p => p.1 == k)).map (fun p => p.2)

/-- Inner loop of `validateAll`: every slot value of a semester, including
`null` slots, is passed to `validatePlacement` and written to the map. -/
def validateSlots (db : DB) (fuel : Nat) (grid : GridState) (order : List String)
    (semId : String) : List (Option String) → ResultMap → Option ResultMap
  | [], m => some m
  | code? :: rest, m =>
    match validatePlacement db fuel code? semId grid order with
    | none => none
    | some r => validateSlots db fuel grid order semId rest (mapSet m code? r)

/-- Outer loop of `validateAll` over `semesterOrder`. -/
def validateSems (db : DB) (fuel : Nat) (grid : GridState) (order : List String) :
    List String → ResultMap → Option ResultMap
  | [], m => some m
  | semId :: rest, m =>
    match lookupSem grid semId with
    | none => none
    | some slots =>
      match validateSlots db fuel grid order semId slots m with
      | none => none
      | some m2 => validateSems db fuel grid order rest m2

/-- `validateAll(gridManager, semesterOrder)`. -/
def validateAll (db : DB) (fuel : Nat) (grid : GridState)
    (order : List String) : Option ResultMap :=
  validateSems db fuel grid order order []

/-! ## Derived predicates -/

def hasPrereqErr (r : VPRes) : Bool :=
  r.errors.any (fun e => match e with | .prereq _ => true | _ => false)

def hasCoreqErr (r : VPRes) : Bool :=
  r.errors.any (fun e => match e with | .coreq _ => true | _ => false)

def hasExclErr (r : VPRes) : Bool :=
  r.errors.any (fun e => match e with | .excl _ => true | _ => false)

/-- The contribution of one AND child to the flattened missing list. -/
def missContrib (completed : List String) (n : Node) : List Miss :=
  match validate completed n with
  | some r => if r.satisfied then [] else r.missing
  | none => []

/-- The cyclic catalog of the spec's concrete scenario 4, with ids that
match the courseset-reference pattern. -/
def cycDB : DB :=
  ⟨fun _ => none,
   fun id =>
     if id = "AA111H1_p1" then some "BB111H1_p1"
     else if id = "BB111H1_p1" then some "AA111H1_p1" else none⟩

/-- A catalog whose single course has an exclusion id that is absent from
the coursesets mapping. -/
def c7db : DB :=
  ⟨fun c => if c = "AA101H1" then
      some ⟨"AA101H1", none, none, some "ZZ999H1_e1"⟩ else none,
   fun _ => none⟩

/-- Well-formed grid state: semester keys are distinct (JS object keys). -/
def WfGrid (st : GridState) : Prop :=
  (st.map Prod.fst).Nodup

/-- Each course code occupies at most one slot of the whole grid. -/
def AtMostOnce (st : GridState) : Prop :=
  ∀ c s1 i1 s2 i2, slotValue st s1 i1 = some (some c) →
    slotValue st s2 i2 = some (some c) → s1 = s2 ∧ i1 = i2

/-- Grid states reachable from `initSemesters` by the three mutators.
Mutator steps carry the in-range/known-semester conditions under which the
JS methods run their normal (non-throwing, non-array-extending) path. -/
inductive Reachable : GridState → Prop where
  | init (ids : List String) (h : ids.Nodup) : Reachable (initSemesters ids)
  | add (st : GridState) (semId : String) (slot : Nat) (code : String)
      (b : Bool) (st' : GridState) : Reachable st →
      addCourse st semId slot code = some (b, st') → Reachable st'
  | remove (st : GridState) (semId : String) (slot : Nat) (slots : Slots)
      (st' : GridState) : Reachable st → lookupSem st semId = some slots →
      slot < slots.length → removeCourse st semId slot = some st' → Reachable st'
  | move (st : GridState) (fs : String) (fi : Nat) (ts : String) (ti : Nat)
      (fsl tsl : Slots) (st' : GridState) : Reachable st →
      lookupSem st fs = some fsl → fi < fsl.length →
      lookupSem st ts = some tsl → ti < tsl.length →
      moveCourse st fs fi ts ti = some st' → Reachable st'

/-! ## Evaluator lemmas -/

theorem anySat_iff (completed : List String) (cs : List Node) (b : Bool)
    (h : anySat completed cs = some b) :
    b = true ↔ ∃ n ∈ cs, ∃ r, validate completed n = some r ∧ r.satisfied = true := by
  induction cs generalizing b with
  | nil =>
    simp only [anySat, Option.some.injEq] at h
    subst h
    simp
  | cons n ns ih =>
    simp only [anySat] at h
    cases hv : validate completed n with
    | none => simp [hv] at h
    | some r =>
      rw [hv] at h
      by_cases hs : r.satisfied = true
      · simp only [hs, if_true, Option.some.injEq] at h
        subst h
        simp only [true_iff]
        exact ⟨n, List.mem_cons_self n ns, r, hv, hs⟩
      · simp only [hs, if_false, Bool.false_eq_true] at h
        rw [ih b h]
        constructor
        · rintro ⟨m, hm, rm, hvm, hsm⟩
          exact ⟨m, List.mem_cons_of_mem n hm, rm, hvm, hsm⟩
        · rintro ⟨m, hm, rm, hvm, hsm⟩
          rcases List.mem_cons.mp hm with heq | hmem
          · subst heq
            rw [hv] at hvm
            cases hvm
            exact absurd hsm hs
          · exact ⟨m, hmem, rm, hvm, hsm⟩

theorem andFold_eq (completed : List String) (cs : List Node) (b : Bool) (ms : List Miss)
    (h : andFold completed cs = some (b, ms)) :
    (b = true ↔ ∀ n ∈ cs, ∀ r, validate completed n = some r → r.satisfied = true) ∧
    ms = (cs.map (missContrib completed)).flatten := by
  induction cs generalizing b ms with
  | nil =>
    simp only [andFold, Option.some.injEq, Prod.mk.injEq] at h
    obtain ⟨hb, hm⟩ := h
    subst hb hm
    simp
  | cons n ns ih =>
    simp only [andFold] at h
    cases hv : validate completed n with
    | none => simp [hv] at h
    | some r =>
      rw [hv] at h
      cases hf : andFold completed ns with
      | none => simp [hf] at h
      | some p =>
        obtain ⟨b2, ms2⟩ := p
        rw [hf] at h
        simp only [Option.some.injEq, Prod.mk.injEq] at h
        obtain ⟨hb, hm⟩ := h
        obtain ⟨ih1, ih2⟩ := ih b2 ms2 hf
        constructor
        · subst hb
          simp only [Bool.and_eq_true]
          constructor
          · rintro ⟨hr, hall⟩ m hm' rm hvm
            rcases List.mem_cons.mp hm' with heq | hmem
            · subst heq; rw [hv] at hvm; cases hvm; exact hr
            · exact (ih1.mp hall) m hmem rm hvm
          · intro hall
            exact ⟨hall n (List.mem_cons_self n ns) r hv,
              ih1.mpr (fun m hm' rm hvm => hall m (List.mem_cons_of_mem n hm') rm hvm)⟩
        · subst hm
          rw [ih2]
          simp [missContrib, hv]

theorem collectList_mem_eq (cs : List Node) (l : List String)
    (h : collectList cs = some l)
    (ih : ∀ n ∈ cs, ∀ l', collectLeafCodes n = some l' → l' = specLeafCodes n) :
    l = specLeafList cs := by
  induction cs generalizing l with
  | nil =>
    simp only [collectList, Option.some.injEq] at h
    subst h
    rfl
  | cons n ns ihl =>
    simp only [collectList] at h
    cases hc : collectLeafCodes n with
    | none => simp [hc] at h
    | some a =>
      cases hl : collectList ns with
      | none => simp [hc, hl] at h
      | some bl =>
        rw [hc, hl] at h
        simp only [Option.some.injEq] at h
        subst h
        have ha := ih n (List.mem_cons_self n ns) a hc
        have hb := ihl bl hl (fun m hm => ih m (List.mem_cons_of_mem n hm))
        rw [ha, hb]
        rfl

theorem collect_eq_spec_aux :
    ∀ k n l, sizeOf n < k → collectLeafCodes n = some l → l = specLeafCodes n := by
  intro k
  induction k with
  | zero => intro n l h; omega
  | succ k ih =>
    intro n l hsz h
    cases n with
    | nullN => simp [collectLeafCodes] at h
    | course c =>
      simp only [collectLeafCodes, Option.some.injEq] at h
      subst h
      rfl
    | andN cs =>
      have h' : collectList cs = some l := h
      refine collectList_mem_eq cs l h' ?_
      intro m hm l' hc'
      refine ih m l' ?_ hc'
      have h1 := List.sizeOf_lt_of_mem hm
      have h2 : sizeOf (Node.andN cs) = 1 + sizeOf cs := by simp
      omega
    | orN cs =>
      have h' : collectList cs = some l := h
      refine collectList_mem_eq cs l h' ?_
      intro m hm l' hc'
      refine ih m l' ?_ hc'
      have h1 := List.sizeOf_lt_of_mem hm
      have h2 : sizeOf (Node.orN cs) = 1 + sizeOf cs := by simp
      omega

theorem collect_eq_spec (n : Node) (l : List String)
    (h : collectLeafCodes n = some l) : l = specLeafCodes n :=
  collect_eq_spec_aux (sizeOf n + 1) n l (by omega) h

theorem validate_orN_eq (completed : List String) (cs : List Node) :
    validate completed (.orN cs) =
      match anySat completed cs with
      | none => none
      | some true => some ⟨true, []⟩
      | some false =>
        match collectList cs with
        | none => none
        | some opts => some ⟨false, [.orM opts]⟩ := rfl

theorem validate_andN_eq (completed : List String) (cs : List Node) :
    validate completed (.andN cs) =
      match andFold completed cs with
      | none => none
      | some (b, ms) => some ⟨b, ms⟩ := rfl

theorem validate_no_andM_aux :
    ∀ k n completed r, sizeOf n < k → validate completed n = some r →
      ∀ m ∈ r.missing, ∀ items, m ≠ Miss.andM items := by
  intro k
  induction k with
  | zero => intro n _ _ h; omega
  | succ k ih =>
    intro n completed r hsz h m hm items
    cases n with
    | nullN =>
      simp only [validate, Option.some.injEq] at h
      subst h
      simp at hm
    | course c =>
      simp only [validate, Option.some.injEq] at h
      subst h
      split at hm
      · simp at hm
      · simp only [VRes.missing] at hm
        rcases List.mem_singleton.mp hm with rfl
        simp
    | orN cs =>
      rw [validate_orN_eq] at h
      cases ha : anySat completed cs with
      | none => rw [ha] at h; cases h
      | some b =>
        rw [ha] at h
        cases b with
        | true =>
          simp only [Option.some.injEq] at h
          subst h
          simp at hm
        | false =>
          cases hcl : collectList cs with
          | none => rw [hcl] at h; cases h
          | some opts =>
            rw [hcl] at h
            simp only [Option.some.injEq] at h
            subst h
            simp only [List.mem_singleton] at hm
            subst hm
            simp
    | andN cs =>
      rw [validate_andN_eq] at h
      cases hf : andFold completed cs with
      | none => rw [hf] at h; cases h
      | some p =>
        obtain ⟨b, ms⟩ := p
        rw [hf] at h
        simp only [Option.some.injEq] at h
        subst h
        obtain ⟨-, hms⟩ := andFold_eq completed cs b ms hf
        simp only [hms, List.mem_flatten] at hm
        obtain ⟨s, hs, hmem⟩ := hm
        obtain ⟨n', hn', hcontrib⟩ := List.mem_map.mp hs
        subst hcontrib
        unfold missContrib at hmem
        cases hv : validate completed n' with
        | none => rw [hv] at hmem; simp at hmem
        | some r' =>
          rw [hv] at hmem
          by_cases hsat : r'.satisfied = true
          · simp [hsat] at hmem
          · simp only [hsat, if_false, Bool.false_eq_true] at hmem
            refine ih n' completed r' ?_ hv m hmem items
            have h1 := List.sizeOf_lt_of_mem hn'
            have h2 : sizeOf (Node.andN cs) = 1 + sizeOf cs := by simp
            omega

theorem validate_no_andM (n : Node) (completed : List String) (r : VRes)
    (h : validate completed n = some r) :
    ∀ m ∈ r.missing, ∀ items, m ≠ Miss.andM items :=
  validate_no_andM_aux (sizeOf n + 1) n completed r (by omega) h

/-! ## Claim C4: OR semantics -/

/-- C4: for every `AnyOf` (OR) tree, a returned evaluation is satisfied iff
at least one child evaluates satisfied, and on full failure the missing
list is exactly one `MissingAnyOf` entry whose options are the
concatenated descendant leaf course codes of the whole subtree. -/
theorem c4_anyof_semantics (completed : List String) (cs : List Node) (r : VRes)
    (h : validate completed (.orN cs) = some r) :
    (r.satisfied = true ↔
      ∃ n ∈ cs, ∃ rn, validate completed n = some rn ∧ rn.satisfied = true) ∧
    (r.satisfied = false → r.missing = [.orM (specLeafCodes (.orN cs))]) := by
  rw [validate_orN_eq] at h
  cases ha : anySat completed cs with
  | none => rw [ha] at h; cases h
  | some b =>
    rw [ha] at h
    have hiff := anySat_iff completed cs b ha
    cases b with
    | true =>
      simp only [Option.some.injEq] at h
      subst h
      exact ⟨by simpa using hiff, by simp⟩
    | false =>
      cases hcl : collectList cs with
      | none => rw [hcl] at h; cases h
      | some opts =>
        rw [hcl] at h
        simp only [Option.some.injEq] at h
        subst h
        constructor
        · simpa using hiff
        · intro _
          have : opts = specLeafCodes (.orN cs) := collect_eq_spec (.orN cs) opts hcl
          rw [this]

/-- Witness for C4 at a concrete OR tree and completed set. -/
theorem c4_anyof_semantics_witness :
    validate [] (Node.orN [Node.course "AA101H1", Node.course "BB101H1"]) =
      some ⟨false, [Miss.orM ["AA101H1", "BB101H1"]]⟩ ∧
    ((false = true ↔
        ∃ n ∈ [Node.course "AA101H1", Node.course "BB101H1"], ∃ rn,
          validate [] n = some rn ∧ rn.satisfied = true) ∧
      (false = false →
        [Miss.orM ["AA101H1", "BB101H1"]] =
          [.orM (specLeafCodes (.orN [Node.course "AA101H1", Node.course "BB101H1"]))])) :=
  ⟨rfl, c4_anyof_semantics [] [Node.course "AA101H1", Node.course "BB101H1"]
    ⟨false, [Miss.orM ["AA101H1", "BB101H1"]]⟩ rfl⟩

/-! ## Claim C5: AND semantics -/

/-- C5 counterexample: the empty `AllOf` tree evaluated against the empty
completed set is satisfied, not unsatisfied as the claim states for every
`AllOf` tree. -/
theorem c5_empty_allof_counterexample :
    validate [] (Node.andN []) = some ⟨true, []⟩ := rfl

/-- C5 amended: a returned `AllOf` evaluation is satisfied iff every child
is satisfied; the missing list is the concatenation, in child order, of
each unsatisfied child's missing list, never containing a nested
`MissingAllOf` entry; on the empty completed set the result is
unsatisfied provided at least one child is unsatisfied, with missing
length the sum of the unsatisfied children's missing lengths. -/
theorem c5_allof_semantics (completed : List String) (cs : List Node) (r : VRes)
    (h : validate completed (.andN cs) = some r) :
    (r.satisfied = true ↔
      ∀ n ∈ cs, ∀ rn, validate completed n = some rn → rn.satisfied = true) ∧
    r.missing = (cs.map (missContrib completed)).flatten ∧
    (∀ m ∈ r.missing, ∀ items, m ≠ Miss.andM items) ∧
    ((∃ n ∈ cs, ∃ rn, validate completed n = some rn ∧ rn.satisfied = false) →
      r.satisfied = false) ∧
    r.missing.length = (cs.map (fun n => (missContrib completed n).length)).sum := by
  have hno := validate_no_andM _ _ _ h
  rw [validate_andN_eq] at h
  cases hf : andFold completed cs with
  | none => rw [hf] at h; cases h
  | some p =>
    obtain ⟨b, ms⟩ := p
    rw [hf] at h
    simp only [Option.some.injEq] at h
    subst h
    obtain ⟨hb, hms⟩ := andFold_eq completed cs b ms hf
    refine ⟨hb, hms, hno, ?_, ?_⟩
    · rintro ⟨n, hn, rn, hvn, hsn⟩
      cases hsat : b with
      | false => rfl
      | true =>
        have := hb.mp hsat n hn rn hvn
        rw [this] at hsn
        cases hsn
    · rw [hms, List.length_flatten, List.map_map]
      rfl

/-- Witness for C5 at a concrete AND tree with one unsatisfied child. -/
theorem c5_allof_semantics_witness :
    validate [] (Node.andN [Node.course "AA101H1"]) =
      some ⟨false, [Miss.courseM "AA101H1"]⟩ ∧
    ((false = true ↔
        ∀ n ∈ [Node.course "AA101H1"], ∀ rn, validate [] n = some rn →
          rn.satisfied = true) ∧
      [Miss.courseM "AA101H1"] =
        ([Node.course "AA101H1"].map (missContrib [])).flatten ∧
      (∀ m ∈ [Miss.courseM "AA101H1"], ∀ items, m ≠ Miss.andM items) ∧
      ((∃ n ∈ [Node.course "AA101H1"], ∃ rn, validate [] n = some rn ∧
          rn.satisfied = false) → false = false) ∧
      ([Miss.courseM "AA101H1"] : List Miss).length =
        ([Node.course "AA101H1"].map (fun n => (missContrib [] n).length)).sum) :=
  ⟨rfl, c5_allof_semantics [] [Node.course "AA101H1"]
    ⟨false, [Miss.courseM "AA101H1"]⟩ rfl⟩

/-! ## Claim C3: cyclic courseset recursion -/

/-- C3: on the cyclic courseset pair the source parser recurses without
bound: the fuel-indexed embedding exhausts every finite fuel (there is no
cycle guard, no termination, and no CyclicCourseset error in the code). -/
theorem c3_cycle_nonterminating :
    ∀ fuel, parseCourseset cycDB fuel "AA111H1_p1" = none ∧
      parseCourseset cycDB fuel "BB111H1_p1" = none := by
  intro fuel
  induction fuel with
  | zero => exact ⟨rfl, rfl⟩
  | succ f ih => exact ⟨ih.2, ih.1⟩

/-! ## Split/tokenization lemmas for C6 -/

theorem splitOn3_ne_nil (a b c : Char) (l : List Char) : splitOn3 a b c l ≠ [] := by
  cases l with
  | nil => simp [splitOn3]
  | cons x t =>
    cases t with
    | nil => simp [splitOn3]
    | cons y t2 =>
      cases t2 with
      | nil => simp [splitOn3]
      | cons z rest =>
        simp only [splitOn3]
        split
        · simp
        · cases hsp : splitOn3 a b c (y :: z :: rest) with
          | nil => simp [consHead]
          | cons h t => simp [consHead]

theorem consHead_length (x : Char) (r : List (List Char)) (h : r ≠ []) :
    (consHead x r).length = r.length := by
  cases r with
  | nil => exact absurd rfl h
  | cons hd tl => rfl

theorem splitOn3_len_iff_aux (a b c : Char) :
    ∀ k l, l.length ≤ k →
      (1 < (splitOn3 a b c l).length ↔ ∃ p s, l = p ++ a :: b :: c :: s) := by
  intro k
  induction k with
  | zero =>
    intro l hl
    have hnil : l = [] := List.eq_nil_of_length_eq_zero (by omega)
    subst hnil
    simp [splitOn3]
  | succ k ih =>
    intro l hl
    cases l with
    | nil => simp [splitOn3]
    | cons x t =>
      cases t with
      | nil =>
        simp only [splitOn3, List.length_singleton]
        constructor
        · omega
        · rintro ⟨p, s, hps⟩
          have := congrArg List.length hps
          simp at this
          omega
      | cons y t2 =>
        cases t2 with
        | nil =>
          simp only [splitOn3, List.length_singleton]
          constructor
          · omega
          · rintro ⟨p, s, hps⟩
            have := congrArg List.length hps
            simp at this
            omega
        | cons z rest =>
          simp only [splitOn3]
          by_cases hsep : x = a ∧ y = b ∧ z = c
          · rw [if_pos hsep]
            simp only [List.length_cons]
            constructor
            · intro _
              exact ⟨[], rest, by
                rw [hsep.1, hsep.2.1, hsep.2.2]
                rfl⟩
            · intro _
              have h1 := splitOn3_ne_nil a b c rest
              have h2 := List.length_pos.mpr h1
              omega
          · rw [if_neg hsep]
            rw [consHead_length _ _ (splitOn3_ne_nil a b c _)]
            rw [ih (y :: z :: rest) (by simp only [List.length_cons] at hl ⊢; omega)]
            constructor
            · rintro ⟨p, s, hps⟩
              exact ⟨x :: p, s, by rw [List.cons_append, hps]⟩
            · rintro ⟨p, s, hps⟩
              cases p with
              | nil =>
                simp only [List.nil_append, List.cons.injEq] at hps
                exact absurd ⟨hps.1, hps.2.1, hps.2.2.1⟩ hsep
              | cons q qs =>
                simp only [List.cons_append, List.cons.injEq] at hps
                exact ⟨qs, s, hps.2⟩

theorem splitOn3_len_iff (a b c : Char) (l : List Char) :
    1 < (splitOn3 a b c l).length ↔ ∃ p s, l = p ++ a :: b :: c :: s :=
  splitOn3_len_iff_aux a b c l.length l le_rfl

/-! ## Claim C6: expression tokenization -/

/-- C6: `parseExpression` splits on the AND delimiter `" & "` whenever it
occurs anywhere in the trimmed string, producing an AND node over the
parsed parts; only otherwise does it split on the OR delimiter `" / "`
producing an OR node; with neither delimiter present the whole trimmed
string is parsed as one single token. -/
theorem c6_tokenization (db : DB) (fuel : Nat) (expr : String) :
    ((∃ p s, trimChars expr.toList = p ++ ' ' :: '&' :: ' ' :: s) →
      parseExpression db fuel expr =
        (tokensWith (fun tok => parseCourseset db fuel tok)
          ((splitOn3 ' ' '&' ' ' (trimChars expr.toList)).map
            (fun q => String.mk (trimChars q)))).map Node.andN) ∧
    ((¬ ∃ p s, trimChars expr.toList = p ++ ' ' :: '&' :: ' ' :: s) →
      (∃ p s, trimChars expr.toList = p ++ ' ' :: '/' :: ' ' :: s) →
      parseExpression db fuel expr =
        (tokensWith (fun tok => parseCourseset db fuel tok)
          ((splitOn3 ' ' '/' ' ' (trimChars expr.toList)).map
            (fun q => String.mk (trimChars q)))).map Node.orN) ∧
    ((¬ ∃ p s, trimChars expr.toList = p ++ ' ' :: '&' :: ' ' :: s) →
      (¬ ∃ p s, trimChars expr.toList = p ++ ' ' :: '/' :: ' ' :: s) →
      parseExpression db fuel expr =
        parseToken db fuel (String.mk (trimChars expr.toList))) := by
  refine ⟨?_, ?_, ?_⟩
  · intro hand
    rw [← splitOn3_len_iff ' ' '&' ' '] at hand
    simp only [parseExpression, parseExpressionWith]
    rw [if_pos hand]
  · intro hnand hor
    rw [← splitOn3_len_iff ' ' '&' ' '] at hnand
    rw [← splitOn3_len_iff ' ' '/' ' '] at hor
    simp only [parseExpression, parseExpressionWith]
    rw [if_neg hnand, if_pos hor]
  · intro hnand hnor
    rw [← splitOn3_len_iff ' ' '&' ' '] at hnand
    rw [← splitOn3_len_iff ' ' '/' ' '] at hnor
    simp only [parseExpression, parseExpressionWith, parseToken]
    rw [if_neg hnand, if_neg hnor]

/-- Witness for C6: an AND expression containing both delimiters splits at
`" & "`; a pure OR expression splits at `" / "`; a bare token parses as a
course leaf. -/
theorem c6_tokenization_witness :
    (∃ p s, trimChars " AA101H1 / BB101H1 & CC101H1 ".toList =
        p ++ ' ' :: '&' :: ' ' :: s) ∧
    parseExpression ⟨fun _ => none, fun _ => none⟩ 1 " AA101H1 / BB101H1 & CC101H1 " =
      some (Node.andN [Node.course "AA101H1 / BB101H1", Node.course "CC101H1"]) ∧
    parseExpression ⟨fun _ => none, fun _ => none⟩ 1 "AA101H1 / BB101H1" =
      some (Node.orN [Node.course "AA101H1", Node.course "BB101H1"]) ∧
    parseExpression ⟨fun _ => none, fun _ => none⟩ 1 " AA101H1 " =
      some (Node.course "AA101H1") := by
  have h := c6_tokenization ⟨fun _ => none, fun _ => none⟩ 1
    " AA101H1 / BB101H1 & CC101H1 "
  have hex : ∃ p s, trimChars " AA101H1 / BB101H1 & CC101H1 ".toList =
      p ++ ' ' :: '&' :: ' ' :: s :=
    ⟨"AA101H1 / BB101H1".toList, "CC101H1".toList, rfl⟩
  refine ⟨hex, ?_, ?_, ?_⟩
  · rw [h.1 hex]
    rfl
  · have h2 := c6_tokenization ⟨fun _ => none, fun _ => none⟩ 1 "AA101H1 / BB101H1"
    rw [h2.2.1 (by
        rw [← splitOn3_len_iff ' ' '&' ' ']
        decide)
      ⟨"AA101H1".toList, "BB101H1".toList, rfl⟩]
    rfl
  · have h3 := c6_tokenization ⟨fun _ => none, fun _ => none⟩ 1 " AA101H1 "
    rw [h3.2.2 (by
        rw [← splitOn3_len_iff ' ' '&' ' ']
        decide)
      (by
        rw [← splitOn3_len_iff ' ' '/' ' ']
        decide)]
    rfl

/-! ## Claim C7: absent coursesets -/

/-- C7 counterexample: a course whose exclusion courseset id is unknown
does not pass the exclusion check vacuously — the absent tree counts as
satisfied, the error branch runs `collectLeafCodes(null)`, and
`validatePlacement` throws (returns no result) instead. -/
theorem c7_absent_exclusion_counterexample :
    validatePlacement c7db 2 (some "AA101H1") "fall-1"
      (initSemesters ["fall-1"]) ["fall-1"] = none := rfl

/-- C7 amended: an empty or unknown courseset id resolves to the absent
tree, and an absent tree always evaluates satisfied with an empty missing
list, so an absent prerequisite or corequisite requirement passes
vacuously; an absent exclusion requirement instead takes the error branch
(the satisfied absent tree signals a conflict) and crashes in
`collectLeafCodes`. -/
theorem c7_absent_vacuous (db : DB) (fuel : Nat) (id : String)
    (course : Course) (grid : GridState) (semId : String) (order : List String) :
    (0 < fuel → id = "" ∨ db.coursesets id = none →
      parseCourseset db fuel id = some .nullN) ∧
    (∀ completed, validate completed .nullN = some ⟨true, []⟩) ∧
    (∀ p, truthyStr course.prerequisites = some p → db.coursesets p = none →
      0 < fuel → ∀ completed, getCoursesBeforeSemester grid semId order = some completed →
      prereqErrors db fuel course grid semId order = some []) ∧
    (∀ p, truthyStr course.corequisites = some p → db.coursesets p = none →
      0 < fuel → ∀ completed, getCoursesUpToSemester grid semId order = some completed →
      coreqErrors db fuel course grid semId order = some []) ∧
    (∀ x code, truthyStr course.exclusions = some x → db.coursesets x = none →
      0 < fuel → exclErrors db fuel course code grid = none) := by
  have hparse : ∀ i, 0 < fuel → i = "" ∨ db.coursesets i = none →
      parseCourseset db fuel i = some .nullN := by
    intro i hf hcase
    cases fuel with
    | zero => omega
    | succ f =>
      rcases hcase with rfl | hnone
      · simp [parseCourseset]
      · by_cases hi : i = ""
        · simp [parseCourseset, hi]
        · simp [parseCourseset, hi, hnone]
  refine ⟨hparse id, fun _ => rfl, ?_, ?_, ?_⟩
  · intro p hp hnone hf completed hcompleted
    have hpne : p ≠ "" := by
      cases hpre : course.prerequisites with
      | none => simp [truthyStr, hpre] at hp
      | some s =>
        simp only [truthyStr, hpre] at hp
        split at hp
        · cases hp
        · cases hp; assumption
    simp only [prereqErrors, hp, hcompleted, hparse p hf (Or.inr hnone)]
    rfl
  · intro p hp hnone hf completed hcompleted
    simp only [coreqErrors, hp, hcompleted, hparse p hf (Or.inr hnone)]
    rfl
  · intro x code hx hnone hf
    simp only [exclErrors, hx, hparse x hf (Or.inr hnone)]
    rfl

/-- Witness for C7 at a concrete catalog: an unknown prerequisite id
yields no prerequisite error, while the same course's unknown exclusion id
crashes the exclusion block. -/
theorem c7_absent_vacuous_witness :
    (0 < 2 → "ZZ998H1_p1" = "" ∨ c7db.coursesets "ZZ998H1_p1" = none →
      parseCourseset c7db 2 "ZZ998H1_p1" = some .nullN) ∧
    prereqErrors c7db 2 ⟨"AA101H1", some "ZZ998H1_p1", none, some "ZZ999H1_e1"⟩
      (initSemesters ["fall-1"]) "fall-1" ["fall-1"] = some [] ∧
    exclErrors c7db 2 ⟨"AA101H1", some "ZZ998H1_p1", none, some "ZZ999H1_e1"⟩
      "AA101H1" (initSemesters ["fall-1"]) = none := by
  have h := c7_absent_vacuous c7db 2 "ZZ998H1_p1"
    ⟨"AA101H1", some "ZZ998H1_p1", none, some "ZZ999H1_e1"⟩
    (initSemesters ["fall-1"]) "fall-1" ["fall-1"]
  refine ⟨h.1, ?_, ?_⟩
  · exact h.2.2.1 "ZZ998H1_p1" rfl rfl (by omega) [] rfl
  · exact h.2.2.2.2 "ZZ999H1_e1" "AA101H1" rfl rfl (by omega)

/-! ## Grid lemmas -/

theorem lookupSem_cons_eq (a : String) (sl : Slots) (rest : GridState) (s : String)
    (h : (a == s) = true) : lookupSem ((a, sl) :: rest) s = some sl := by
  simp [lookupSem, List.find?_cons, h]

theorem lookupSem_cons_ne (a : String) (sl : Slots) (rest : GridState) (s : String)
    (h : (a == s) = false) : lookupSem ((a, sl) :: rest) s = lookupSem rest s := by
  simp [lookupSem, List.find?_cons, h]

theorem setSem_cons_eq (a : String) (sl : Slots) (rest : GridState)
    (semId : String) (slots : Slots) (h : (a == semId) = true) :
    setSem ((a, sl) :: rest) semId slots = (a, slots) :: setSem rest semId slots := by
  have hstep : setSem ((a, sl) :: rest) semId slots =
      (if (a == semId) = true then (a, slots) else (a, sl)) :: setSem rest semId slots := rfl
  rw [hstep, if_pos h]

theorem setSem_cons_ne (a : String) (sl : Slots) (rest : GridState)
    (semId : String) (slots : Slots) (h : (a == semId) = false) :
    setSem ((a, sl) :: rest) semId slots = (a, sl) :: setSem rest semId slots := by
  have hstep : setSem ((a, sl) :: rest) semId slots =
      (if (a == semId) = true then (a, slots) else (a, sl)) :: setSem rest semId slots := rfl
  rw [hstep, if_neg (by simp [h])]

theorem lookupSem_setSem_self (st : GridState) (semId : String) (slots old : Slots)
    (h : lookupSem st semId = some old) :
    lookupSem (setSem st semId slots) semId = some slots := by
  induction st with
  | nil => simp [lookupSem] at h
  | cons p rest ih =>
    obtain ⟨a, sl⟩ := p
    cases hb : (a == semId) with
    | true =>
      rw [setSem_cons_eq a sl rest semId slots hb, lookupSem_cons_eq a slots _ semId hb]
    | false =>
      rw [lookupSem_cons_ne a sl rest semId hb] at h
      rw [setSem_cons_ne a sl rest semId slots hb, lookupSem_cons_ne a sl _ semId hb]
      exact ih h

theorem lookupSem_setSem_ne (st : GridState) (semId s : String) (slots : Slots)
    (h : s ≠ semId) :
    lookupSem (setSem st semId slots) s = lookupSem st s := by
  induction st with
  | nil => rfl
  | cons p rest ih =>
    obtain ⟨a, sl⟩ := p
    cases hb : (a == semId) with
    | true =>
      have has : (a == s) = false := by
        simp only [beq_iff_eq] at hb
        simp only [beq_eq_false_iff_ne, ne_eq, hb]
        exact fun e => h e.symm
      rw [setSem_cons_eq a sl rest semId slots hb, lookupSem_cons_ne a slots _ s has,
        lookupSem_cons_ne a sl rest s has]
      exact ih
    | false =>
      rw [setSem_cons_ne a sl rest semId slots hb]
      cases has : (a == s) with
      | true => rw [lookupSem_cons_eq a sl _ s has, lookupSem_cons_eq a sl rest s has]
      | false =>
        rw [lookupSem_cons_ne a sl _ s has, lookupSem_cons_ne a sl rest s has]
        exact ih

theorem slotValue_set (st : GridState) (semId : String) (slots : Slots)
    (h : lookupSem st semId = some slots) (i : Nat) (v : Option String)
    (s : String) (j : Nat) :
    slotValue (setSem st semId (slots.set i v)) s j =
      if s = semId ∧ j = i ∧ i < slots.length then some v
      else slotValue st s j := by
  by_cases hcond : s = semId ∧ j = i ∧ i < slots.length
  · rw [if_pos hcond]
    obtain ⟨rfl, rfl, hlt⟩ := hcond
    unfold slotValue
    rw [lookupSem_setSem_self st s (slots.set j v) slots h]
    simp only [Option.some_bind]
    rw [List.getElem?_set, if_pos rfl, if_pos hlt]
  · rw [if_neg hcond]
    by_cases hs : s = semId
    · subst hs
      unfold slotValue
      rw [lookupSem_setSem_self st s (slots.set i v) slots h, h]
      simp only [Option.some_bind]
      rw [List.getElem?_set]
      by_cases hji : i = j
      · subst hji
        have hi : ¬ i < slots.length := fun hlt => hcond ⟨rfl, rfl, hlt⟩
        rw [if_pos rfl, if_neg hi, List.getElem?_eq_none (by omega)]
      · rw [if_neg hji]
    · unfold slotValue
      rw [lookupSem_setSem_ne st semId s (slots.set i v) hs]

theorem findCourse_none_not_mem (st : GridState) (code : String)
    (h : findCourse st code = none) : ∀ p ∈ st, some code ∉ p.2 := by
  induction st with
  | nil => simp
  | cons q rest ih =>
    obtain ⟨s, sl⟩ := q
    rw [findCourse] at h
    cases hfi : sl.findIdx? (fun v => v == some code) with
    | some i => rw [hfi] at h; cases h
    | none =>
      rw [hfi] at h
      intro p hp
      rcases List.mem_cons.mp hp with rfl | hmem
      · intro hmm
        have hfalse := List.findIdx?_eq_none_iff.mp hfi (some code) hmm
        simp only [beq_self_eq_true] at hfalse
        exact Bool.noConfusion hfalse
      · exact ih h p hmem

theorem mem_of_getElem?_some {α : Type} {l : List α} {i : Nat} {a : α}
    (h : l[i]? = some a) : a ∈ l := by
  obtain ⟨hlt, heq⟩ := List.getElem?_eq_some_iff.mp h
  rw [← heq]
  exact List.get_mem l i hlt

theorem slotValue_ne_of_findCourse_none (st : GridState) (code : String)
    (h : findCourse st code = none) (s : String) (i : Nat) :
    slotValue st s i ≠ some (some code) := by
  intro hv
  unfold slotValue lookupSem at hv
  cases hfind : st.find? (fun p => p.1 == s) with
  | none => rw [hfind] at hv; cases hv
  | some p =>
    rw [hfind] at hv
    simp only [Option.map_some', Option.some_bind] at hv
    exact findCourse_none_not_mem st code h p (List.mem_of_find?_eq_some hfind)
      (mem_of_getElem?_some hv)

theorem atMostOnce_write (st : GridState) (semId : String) (slots : Slots)
    (i : Nat) (v : Option String) (h : AtMostOnce st)
    (hl : lookupSem st semId = some slots)
    (hv : ∀ c, v = some c → ∀ s j, slotValue st s j ≠ some (some c)) :
    AtMostOnce (setSem st semId (slots.set i v)) := by
  intro c s1 i1 s2 i2 h1 h2
  rw [slotValue_set st semId slots hl i v] at h1 h2
  by_cases c1 : s1 = semId ∧ i1 = i ∧ i < slots.length
  · rw [if_pos c1] at h1
    by_cases c2 : s2 = semId ∧ i2 = i ∧ i < slots.length
    · exact ⟨c1.1.trans c2.1.symm, c1.2.1.trans c2.2.1.symm⟩
    · rw [if_neg c2] at h2
      injection h1 with h1'
      exact absurd h2 (hv c h1' s2 i2)
  · rw [if_neg c1] at h1
    by_cases c2 : s2 = semId ∧ i2 = i ∧ i < slots.length
    · rw [if_pos c2] at h2
      injection h2 with h2'
      exact absurd h1 (hv c h2' s1 i1)
    · rw [if_neg c2] at h2
      exact h c s1 i1 s2 i2 h1 h2

theorem addCourse_eq (st : GridState) (semId : String) (slot : Nat) (code : String)
    (b : Bool) (st' : GridState) (h : addCourse st semId slot code = some (b, st')) :
    (b = false ∧ st' = st) ∨
    (b = true ∧ findCourse st code = none ∧ ∃ slots, lookupSem st semId = some slots ∧
      slots[slot]? = some none ∧ st' = setSem st semId (slots.set slot (some code))) := by
  unfold addCourse at h
  split at h
  · simp only [Option.some.injEq, Prod.mk.injEq] at h
    exact Or.inl ⟨h.1.symm, h.2.symm⟩
  · next hf =>
    split at h
    · cases h
    · next slots hl =>
      split at h
      · simp only [Option.some.injEq, Prod.mk.injEq] at h
        exact Or.inl ⟨h.1.symm, h.2.symm⟩
      · next ho =>
        simp only [Option.some.injEq, Prod.mk.injEq] at h
        refine Or.inr ⟨h.1.symm, Option.not_isSome_iff_eq_none.mp (by simpa using hf),
          slots, hl, ?_, h.2.symm⟩
        simpa using ho

theorem lookupSem_init (ids : List String) (s : String) (slots : Slots)
    (h : lookupSem (initSemesters ids) s = some slots) :
    slots = List.replicate slotsPerSemester none := by
  induction ids with
  | nil => simp [initSemesters, lookupSem] at h
  | cons id rest ih =>
    have hcons : initSemesters (id :: rest) =
        (id, List.replicate slotsPerSemester none) :: initSemesters rest := rfl
    rw [hcons] at h
    cases hid : (id == s) with
    | true =>
      rw [lookupSem_cons_eq _ _ _ _ hid] at h
      cases h
      rfl
    | false =>
      rw [lookupSem_cons_ne _ _ _ _ hid] at h
      exact ih h

theorem atMostOnce_init (ids : List String) : AtMostOnce (initSemesters ids) := by
  intro c s1 i1 s2 i2 h1 h2
  exfalso
  unfold slotValue at h1
  cases hl : lookupSem (initSemesters ids) s1 with
  | none => rw [hl] at h1; cases h1
  | some slots =>
    rw [hl] at h1
    rw [lookupSem_init ids s1 slots hl] at h1
    simp only [Option.some_bind, List.getElem?_replicate] at h1
    split at h1 <;> simp at h1

theorem slot_getD_eq (fsl : Slots) (fi : Nat) (hfi : fi < fsl.length) :
    fsl[fi]? = some (fsl.getD fi none) := by
  rw [List.getD_eq_getElem?_getD]
  cases hg : fsl[fi]? with
  | none =>
    rw [List.getElem?_eq_none_iff] at hg
    omega
  | some w => rfl

/-! ## Claim C9: at-most-one-slot invariant -/

/-- C9: every grid state reachable from `initSemesters` by `addCourse`,
`removeCourse` and `moveCourse` steps places each course code in at most
one slot of the whole grid; `addCourse` returns false and leaves the
state unchanged when the code is already anywhere in the grid or when the
target slot is occupied. -/
theorem c9_at_most_once :
    (∀ st, Reachable st → AtMostOnce st) ∧
    (∀ st semId slot code, (findCourse st code).isSome = true →
      addCourse st semId slot code = some (false, st)) ∧
    (∀ st semId slot code slots v, lookupSem st semId = some slots →
      slots[slot]? = some (some v) → addCourse st semId slot code = some (false, st)) := by
  refine ⟨?_, ?_, ?_⟩
  · intro st h
    induction h with
    | init ids hnd => exact atMostOnce_init ids
    | add st semId slot code b st' hr hadd ih =>
      rcases addCourse_eq st semId slot code b st' hadd with
        ⟨-, rfl⟩ | ⟨-, hfind, slots, hl, hslot, rfl⟩
      · exact ih
      · exact atMostOnce_write st semId slots slot (some code) ih hl
          (fun c hc s j => by
            cases hc
            exact slotValue_ne_of_findCourse_none st code hfind s j)
    | remove st semId slot slots st' hr hl hlen hrem ih =>
      have hst' : st' = setSem st semId (slots.set slot none) := by
        unfold removeCourse at hrem
        rw [hl] at hrem
        cases hrem
        rfl
      subst hst'
      exact atMostOnce_write st semId slots slot none ih hl (fun c hc => by cases hc)
    | move st fs fi ts ti fsl tsl st' hr hf hfi ht hti hmv ih =>
      have h1 : AtMostOnce (setSem st fs (fsl.set fi none)) :=
        atMostOnce_write st fs fsl fi none ih hf (fun c hc => by cases hc)
      simp only [moveCourse, hf] at hmv
      by_cases hts : ts = fs
      · subst hts
        have hlt : lookupSem (setSem st ts (fsl.set fi none)) ts =
            some (fsl.set fi none) :=
          lookupSem_setSem_self st ts (fsl.set fi none) fsl hf
        rw [hlt] at hmv
        injection hmv with hmv'
        subst hmv'
        refine atMostOnce_write _ ts (fsl.set fi none) ti (fsl.getD fi none) h1 hlt ?_
        intro c hc s j
        have hsrc : slotValue st ts fi = some (some c) := by
          unfold slotValue
          rw [hf]
          simp only [Option.some_bind]
          rw [slot_getD_eq fsl fi hfi, hc]
        rw [slotValue_set st ts fsl hf fi none s j]
        by_cases hcnd : s = ts ∧ j = fi ∧ fi < fsl.length
        · rw [if_pos hcnd]
          intro he
          injection he with he'
          cases he'
        · rw [if_neg hcnd]
          intro he
          obtain ⟨hs, hj⟩ := ih c s j ts fi he hsrc
          exact hcnd ⟨hs, hj, hfi⟩
      · have hlt : lookupSem (setSem st fs (fsl.set fi none)) ts = some tsl := by
          rw [lookupSem_setSem_ne st fs ts (fsl.set fi none) hts]
          exact ht
        rw [hlt] at hmv
        injection hmv with hmv'
        subst hmv'
        refine atMostOnce_write _ ts tsl ti (fsl.getD fi none) h1 hlt ?_
        intro c hc s j
        have hsrc : slotValue st fs fi = some (some c) := by
          unfold slotValue
          rw [hf]
          simp only [Option.some_bind]
          rw [slot_getD_eq fsl fi hfi, hc]
        rw [slotValue_set st fs fsl hf fi none s j]
        by_cases hcnd : s = fs ∧ j = fi ∧ fi < fsl.length
        · rw [if_pos hcnd]
          intro he
          injection he with he'
          cases he'
        · rw [if_neg hcnd]
          intro he
          obtain ⟨hs, hj⟩ := ih c s j fs fi he hsrc
          exact hcnd ⟨hs, hj, hfi⟩
  · intro st semId slot code hfind
    unfold addCourse
    rw [if_pos hfind]
  · intro st semId slot code slots v hl hslot
    unfold addCourse
    split
    · rfl
    · split
      · next heq =>
        rw [hl] at heq
        cases heq
      · next slots2 heq =>
        rw [hl] at heq
        injection heq with heq'
        subst heq'
        split
        · rfl
        · next ho =>
          rw [hslot] at ho
          simp at ho

/-- Witness for C9: the invariant at an `initSemesters` state, a rejected
duplicate add, and a rejected add into an occupied slot. -/
theorem c9_at_most_once_witness :
    AtMostOnce (initSemesters ["fall-1", "winter-1"]) ∧
    addCourse [("fall-1", [some "APS105H1", none])] "fall-1" 1 "APS105H1" =
      some (false, [("fall-1", [some "APS105H1", none])]) ∧
    addCourse [("fall-1", [some "APS105H1", none])] "fall-1" 0 "ECE244H1" =
      some (false, [("fall-1", [some "APS105H1", none])]) := by
  refine ⟨c9_at_most_once.1 _ (Reachable.init ["fall-1", "winter-1"] (by simp)), ?_, ?_⟩
  · exact c9_at_most_once.2.1 _ "fall-1" 1 "APS105H1" rfl
  · exact c9_at_most_once.2.2 _ "fall-1" 0 "ECE244H1" [some "APS105H1", none]
      "APS105H1" rfl rfl

/-! ## Claim C10: moveCourse frame conditions -/

/-- C10: `moveCourse` performs no occupancy check on the destination: it
always succeeds on in-range slots of known semesters, nulls the source
slot, writes the source code into the destination slot (overwriting its
previous occupant, which then occurs nowhere in the plan), and leaves
every other slot unchanged. -/
theorem c10_move_frame (st : GridState) (fs : String) (fi : Nat) (ts : String)
    (ti : Nat) (fsl tsl : Slots) (hf : lookupSem st fs = some fsl)
    (hfi : fi < fsl.length) (ht : lookupSem st ts = some tsl)
    (hti : ti < tsl.length) :
    ∃ st', moveCourse st fs fi ts ti = some st' ∧
      slotValue st' ts ti = some (fsl.getD fi none) ∧
      (¬(ts = fs ∧ ti = fi) → slotValue st' fs fi = some none) ∧
      (∀ s j, ¬(s = fs ∧ j = fi) → ¬(s = ts ∧ j = ti) →
        slotValue st' s j = slotValue st s j) ∧
      (∀ d, tsl[ti]? = some (some d) → fsl.getD fi none ≠ some d →
        ¬(ts = fs ∧ ti = fi) →
        (∀ s j, slotValue st s j = some (some d) → s = ts ∧ j = ti) →
        ∀ s j, slotValue st' s j ≠ some (some d)) := by
  by_cases hts : ts = fs
  · subst hts
    have htf : tsl = fsl := by
      rw [hf] at ht
      injection ht with h0
      exact h0.symm
    subst htf
    have hlt : lookupSem (setSem st ts (tsl.set fi none)) ts =
        some (tsl.set fi none) :=
      lookupSem_setSem_self st ts (tsl.set fi none) tsl hf
    refine ⟨setSem (setSem st ts (tsl.set fi none)) ts
      ((tsl.set fi none).set ti (tsl.getD fi none)), ?_, ?_, ?_, ?_, ?_⟩
    · simp only [moveCourse, hf, hlt]
    · rw [slotValue_set _ ts (tsl.set fi none) hlt ti (tsl.getD fi none) ts ti,
        if_pos ⟨rfl, rfl, by simpa using hti⟩]
    · intro hne
      have hfine : ti ≠ fi := fun e => hne ⟨rfl, e⟩
      rw [slotValue_set _ ts (tsl.set fi none) hlt ti (tsl.getD fi none) ts fi,
        if_neg (fun hc => hfine hc.2.1.symm),
        slotValue_set st ts tsl hf fi none ts fi, if_pos ⟨rfl, rfl, hfi⟩]
    · intro s j hs1 hs2
      rw [slotValue_set _ ts (tsl.set fi none) hlt ti (tsl.getD fi none) s j,
        if_neg (fun hc => hs2 ⟨hc.1, hc.2.1⟩),
        slotValue_set st ts tsl hf fi none s j,
        if_neg (fun hc => hs1 ⟨hc.1, hc.2.1⟩)]
    · intro d hd hne hnsame honly s j
      rw [slotValue_set _ ts (tsl.set fi none) hlt ti (tsl.getD fi none) s j]
      by_cases hc2 : s = ts ∧ j = ti ∧ ti < (tsl.set fi none).length
      · rw [if_pos hc2]
        intro he
        injection he with he'
        exact hne he'
      · rw [if_neg hc2]
        rw [slotValue_set st ts tsl hf fi none s j]
        by_cases hc1 : s = ts ∧ j = fi ∧ fi < tsl.length
        · rw [if_pos hc1]
          intro he
          injection he with he'
          cases he'
        · rw [if_neg hc1]
          intro he
          obtain ⟨rfl, rfl⟩ := honly s j he
          exact hc2 ⟨rfl, rfl, by simpa using hti⟩
  · have hlt : lookupSem (setSem st fs (fsl.set fi none)) ts = some tsl := by
      rw [lookupSem_setSem_ne st fs ts (fsl.set fi none) hts]
      exact ht
    refine ⟨setSem (setSem st fs (fsl.set fi none)) ts
      (tsl.set ti (fsl.getD fi none)), ?_, ?_, ?_, ?_, ?_⟩
    · simp only [moveCourse, hf, hlt]
    · rw [slotValue_set _ ts tsl hlt ti (fsl.getD fi none) ts ti,
        if_pos ⟨rfl, rfl, hti⟩]
    · intro _
      rw [slotValue_set _ ts tsl hlt ti (fsl.getD fi none) fs fi,
        if_neg (fun hc => hts hc.1.symm),
        slotValue_set st fs fsl hf fi none fs fi, if_pos ⟨rfl, rfl, hfi⟩]
    · intro s j hs1 hs2
      rw [slotValue_set _ ts tsl hlt ti (fsl.getD fi none) s j,
        if_neg (fun hc => hs2 ⟨hc.1, hc.2.1⟩),
        slotValue_set st fs fsl hf fi none s j,
        if_neg (fun hc => hs1 ⟨hc.1, hc.2.1⟩)]
    · intro d hd hne hnsame honly s j
      rw [slotValue_set _ ts tsl hlt ti (fsl.getD fi none) s j]
      by_cases hc2 : s = ts ∧ j = ti ∧ ti < tsl.length
      · rw [if_pos hc2]
        intro he
        injection he with he'
        exact hne he'
      · rw [if_neg hc2]
        rw [slotValue_set st fs fsl hf fi none s j]
        by_cases hc1 : s = fs ∧ j = fi ∧ fi < fsl.length
        · rw [if_pos hc1]
          intro he
          injection he with he'
          cases he'
        · rw [if_neg hc1]
          intro he
          obtain ⟨rfl, rfl⟩ := honly s j he
          exact hc2 ⟨rfl, rfl, hti⟩

/-- Witness for C10: moving a course onto an occupied destination slot of a
two-semester grid. -/
theorem c10_move_frame_witness :
    ∃ st', moveCourse [("f1", [some "AA101H1", some "BB101H1"]),
        ("w1", [some "CC101H1"])] "f1" 0 "w1" 0 = some st' ∧
      slotValue st' "w1" 0 =
        some ([some "AA101H1", some "BB101H1"].getD 0 none) ∧
      (¬("w1" = "f1" ∧ 0 = 0) → slotValue st' "f1" 0 = some none) ∧
      (∀ s j, ¬(s = "f1" ∧ j = 0) → ¬(s = "w1" ∧ j = 0) →
        slotValue st' s j =
          slotValue [("f1", [some "AA101H1", some "BB101H1"]),
            ("w1", [some "CC101H1"])] s j) ∧
      (∀ d, ([some "CC101H1"] : Slots)[0]? = some (some d) →
        [some "AA101H1", some "BB101H1"].getD 0 none ≠ some d →
        ¬("w1" = "f1" ∧ 0 = 0) →
        (∀ s j, slotValue [("f1", [some "AA101H1", some "BB101H1"]),
            ("w1", [some "CC101H1"])] s j = some (some d) → s = "w1" ∧ j = 0) →
        ∀ s j, slotValue st' s j ≠ some (some d)) :=
  c10_move_frame [("f1", [some "AA101H1", some "BB101H1"]), ("w1", [some "CC101H1"])]
    "f1" 0 "w1" 0 [some "AA101H1", some "BB101H1"] [some "CC101H1"]
    rfl (by decide) rfl (by decide)

/-! ## Membership lemmas for the derived course sets -/

theorem mem_setAdd (acc : List String) (s c : String) :
    c ∈ setAdd acc s ↔ c ∈ acc ∨ c = s := by
  unfold setAdd
  split
  · next hc =>
    constructor
    · exact Or.inl
    · rintro (h | rfl)
      · exact h
      · simpa using hc
  · next hc => simp

theorem mem_addSlots (slots : Slots) (acc : List String) (c : String) :
    c ∈ addSlots acc slots ↔ c ∈ acc ∨ (some c ∈ slots ∧ c ≠ "") := by
  induction slots generalizing acc with
  | nil => simp [addSlots]
  | cons v vs ih =>
    rw [addSlots, ih]
    cases v with
    | none =>
      simp only [truthyStr]
      constructor
      · rintro (hc | ⟨hm, hne⟩)
        · exact Or.inl hc
        · exact Or.inr ⟨List.mem_cons_of_mem _ hm, hne⟩
      · rintro (hc | ⟨hm, hne⟩)
        · exact Or.inl hc
        · rcases List.mem_cons.mp hm with he | hm2
          · cases he
          · exact Or.inr ⟨hm2, hne⟩
    | some s =>
      by_cases hs : s = ""
      · subst hs
        simp only [truthyStr, if_pos rfl]
        constructor
        · rintro (hc | ⟨hm, hne⟩)
          · exact Or.inl hc
          · exact Or.inr ⟨List.mem_cons_of_mem _ hm, hne⟩
        · rintro (hc | ⟨hm, hne⟩)
          · exact Or.inl hc
          · rcases List.mem_cons.mp hm with he | hm2
            · injection he with he'
              exact absurd he' hne
            · exact Or.inr ⟨hm2, hne⟩
      · simp only [truthyStr, if_neg hs]
        rw [mem_setAdd]
        constructor
        · rintro ((hc | rfl) | ⟨hm, hne⟩)
          · exact Or.inl hc
          · exact Or.inr ⟨List.mem_cons_self _ _, hs⟩
          · exact Or.inr ⟨List.mem_cons_of_mem _ hm, hne⟩
        · rintro (hc | ⟨hm, hne⟩)
          · exact Or.inl (Or.inl hc)
          · rcases List.mem_cons.mp hm with he | hm2
            · injection he with he'
              exact Or.inl (Or.inr he')
            · exact Or.inr ⟨hm2, hne⟩

theorem codesInSems_mem (st : GridState) (sems : List String)
    (acc res : List String) (h : codesInSems st sems acc = some res) (c : String) :
    c ∈ res ↔ c ∈ acc ∨ ∃ sem ∈ sems, ∃ slots, lookupSem st sem = some slots ∧
      some c ∈ slots ∧ c ≠ "" := by
  induction sems generalizing acc res with
  | nil =>
    rw [codesInSems] at h
    injection h with h'
    subst h'
    simp
  | cons sem rest ih =>
    rw [codesInSems] at h
    cases hl : lookupSem st sem with
    | none => rw [hl] at h; cases h
    | some slots =>
      rw [hl] at h
      rw [ih _ _ h, mem_addSlots]
      constructor
      · rintro ((hc | ⟨hm, hne⟩) | ⟨s2, hs2, slots2, hl2, hm2, hne2⟩)
        · exact Or.inl hc
        · exact Or.inr ⟨sem, List.mem_cons_self _ _, slots, hl, hm, hne⟩
        · exact Or.inr ⟨s2, List.mem_cons_of_mem _ hs2, slots2, hl2, hm2, hne2⟩
      · rintro (hc | ⟨s2, hs2, slots2, hl2, hm2, hne2⟩)
        · exact Or.inl (Or.inl hc)
        · rcases List.mem_cons.mp hs2 with rfl | hmem
          · rw [hl] at hl2
            injection hl2 with he
            subst he
            exact Or.inl (Or.inr ⟨hm2, hne2⟩)
          · exact Or.inr ⟨s2, hmem, slots2, hl2, hm2, hne2⟩

theorem allPlacedAux_mem (st : GridState) (acc : List String) (c : String) :
    c ∈ allPlacedAux st acc ↔ c ∈ acc ∨ ∃ p ∈ st, some c ∈ p.2 ∧ c ≠ "" := by
  induction st generalizing acc with
  | nil => simp [allPlacedAux]
  | cons q rest ih =>
    obtain ⟨s, sl⟩ := q
    rw [allPlacedAux, ih, mem_addSlots]
    constructor
    · rintro ((hc | ⟨hm, hne⟩) | ⟨p, hp, hm2, hne2⟩)
      · exact Or.inl hc
      · exact Or.inr ⟨(s, sl), List.mem_cons_self _ _, hm, hne⟩
      · exact Or.inr ⟨p, List.mem_cons_of_mem _ hp, hm2, hne2⟩
    · rintro (hc | ⟨p, hp, hm2, hne2⟩)
      · exact Or.inl (Or.inl hc)
      · rcases List.mem_cons.mp hp with rfl | hmem
        · exact Or.inl (Or.inr ⟨hm2, hne2⟩)
        · exact Or.inr ⟨p, hmem, hm2, hne2⟩

theorem mem_getAllPlacedCourses (st : GridState) (c : String) :
    c ∈ getAllPlacedCourses st ↔ ∃ p ∈ st, some c ∈ p.2 ∧ c ≠ "" := by
  unfold getAllPlacedCourses
  rw [allPlacedAux_mem]
  simp

theorem mem_take_iff_getElem (l : List String) (k : Nat) (a : String) :
    a ∈ l.take k ↔ ∃ i, i < k ∧ l[i]? = some a := by
  constructor
  · intro h
    obtain ⟨i, hi⟩ := List.mem_iff_getElem?.mp h
    rw [List.getElem?_take] at hi
    by_cases hik : i < k
    · rw [if_pos hik] at hi
      exact ⟨i, hik, hi⟩
    · rw [if_neg hik] at hi
      cases hi
  · rintro ⟨i, hik, hi⟩
    refine List.mem_iff_getElem?.mpr ⟨i, ?_⟩
    rw [List.getElem?_take, if_pos hik]
    exact hi

/-! ## Grid well-formedness lemmas -/

theorem map_fst_setSem (st : GridState) (sem : String) (v : Slots) :
    (setSem st sem v).map Prod.fst = st.map Prod.fst := by
  induction st with
  | nil => rfl
  | cons p rest ih =>
    obtain ⟨a, sl⟩ := p
    cases hb : (a == sem) with
    | true =>
      rw [setSem_cons_eq _ _ _ _ _ hb]
      simp only [List.map_cons]
      rw [ih]
    | false =>
      rw [setSem_cons_ne _ _ _ _ _ hb]
      simp only [List.map_cons]
      rw [ih]

theorem wfGrid_setSem (st : GridState) (sem : String) (v : Slots)
    (hw : WfGrid st) : WfGrid (setSem st sem v) := by
  unfold WfGrid at hw ⊢
  rw [map_fst_setSem]
  exact hw

theorem lookupSem_of_mem_wf (st : GridState) (p : String × Slots)
    (hw : WfGrid st) (hp : p ∈ st) : lookupSem st p.1 = some p.2 := by
  induction st with
  | nil => cases hp
  | cons q rest ih =>
    obtain ⟨a, sl⟩ := q
    rcases List.mem_cons.mp hp with rfl | hmem
    · exact lookupSem_cons_eq a sl rest a (by simp)
    · have hane : (a == p.1) = false := by
        unfold WfGrid at hw
        simp only [List.map_cons, List.nodup_cons] at hw
        have : p.1 ∈ rest.map Prod.fst := List.mem_map.mpr ⟨p, hmem, rfl⟩
        simp only [beq_eq_false_iff_ne, ne_eq]
        intro he
        exact hw.1 (he ▸ this)
      rw [lookupSem_cons_ne a sl rest p.1 hane]
      exact ih (by
        unfold WfGrid at hw ⊢
        simp only [List.map_cons, List.nodup_cons] at hw
        exact hw.2) hmem

theorem not_placed_after_remove (grid : GridState) (sem : String) (slot : Nat)
    (slots : Slots) (y : String) (hl : lookupSem grid sem = some slots)
    (hw : WfGrid grid)
    (honly : ∀ s j, slotValue grid s j = some (some y) → s = sem ∧ j = slot) :
    y ∉ getAllPlacedCourses (setSem grid sem (slots.set slot none)) := by
  intro hy
  rw [mem_getAllPlacedCourses] at hy
  obtain ⟨p, hp, hm, hne⟩ := hy
  have hw' : WfGrid (setSem grid sem (slots.set slot none)) :=
    wfGrid_setSem grid sem (slots.set slot none) hw
  have hlp := lookupSem_of_mem_wf _ p hw' hp
  obtain ⟨j, hj⟩ := List.mem_iff_getElem?.mp hm
  have hv : slotValue (setSem grid sem (slots.set slot none)) p.1 j =
      some (some y) := by
    unfold slotValue
    rw [hlp]
    simpa using hj
  rw [slotValue_set grid sem slots hl slot none p.1 j] at hv
  by_cases hc : p.1 = sem ∧ j = slot ∧ slot < slots.length
  · rw [if_pos hc] at hv
    injection hv with hv'
    cases hv'
  · rw [if_neg hc] at hv
    obtain ⟨he1, he2⟩ := honly p.1 j hv
    subst he2
    have hlen : ¬ j < slots.length := fun hlt => hc ⟨he1, rfl, hlt⟩
    rw [he1] at hv
    unfold slotValue at hv
    rw [hl] at hv
    simp only [Option.some_bind] at hv
    rw [List.getElem?_eq_none (by omega)] at hv
    cases hv

/-! ## validatePlacement dissection lemmas -/

theorem validatePlacement_parts (db : DB) (fuel : Nat) (code : String)
    (semId : String) (grid : GridState) (order : List String) (course : Course)
    (res : VPRes) (hc : db.getCourse code = some course)
    (h : validatePlacement db fuel (some code) semId grid order = some res) :
    ∃ e1 e2 e3, prereqErrors db fuel course grid semId order = some e1 ∧
      coreqErrors db fuel course grid semId order = some e2 ∧
      exclErrors db fuel course code grid = some e3 ∧
      res = ⟨(e1 ++ e2 ++ e3).isEmpty, e1 ++ e2 ++ e3⟩ := by
  simp only [validatePlacement, hc] at h
  cases h1 : prereqErrors db fuel course grid semId order with
  | none => simp only [h1] at h; cases h
  | some e1 =>
    simp only [h1] at h
    cases h2 : coreqErrors db fuel course grid semId order with
    | none => simp only [h2] at h; cases h
    | some e2 =>
      simp only [h2] at h
      cases h3 : exclErrors db fuel course code grid with
      | none => simp only [h3] at h; cases h
      | some e3 =>
        simp only [h3, Option.some.injEq] at h
        exact ⟨e1, e2, e3, rfl, rfl, rfl, h.symm⟩

theorem prereqErrors_shape (db : DB) (fuel : Nat) (course : Course)
    (grid : GridState) (semId : String) (order : List String) (e1 : List PError)
    (h : prereqErrors db fuel course grid semId order = some e1) :
    e1 = [] ∨ ∃ ms, e1 = [PError.prereq ms] := by
  unfold prereqErrors at h
  cases ht : truthyStr course.prerequisites with
  | none =>
    simp only [ht, Option.some.injEq] at h
    exact Or.inl h.symm
  | some p =>
    simp only [ht] at h
    cases hcp : getCoursesBeforeSemester grid semId order with
    | none => simp only [hcp] at h; cases h
    | some completed =>
      simp only [hcp] at h
      cases hpt : parseCourseset db fuel p with
      | none => simp only [hpt] at h; cases h
      | some tree =>
        simp only [hpt] at h
        cases hvr : validate completed tree with
        | none => simp only [hvr] at h; cases h
        | some r =>
          simp only [hvr, Option.some.injEq] at h
          by_cases hs : r.satisfied = true
          · rw [if_pos hs] at h
            exact Or.inl h.symm
          · rw [if_neg hs] at h
            exact Or.inr ⟨r.missing, h.symm⟩

theorem coreqErrors_shape (db : DB) (fuel : Nat) (course : Course)
    (grid : GridState) (semId : String) (order : List String) (e2 : List PError)
    (h : coreqErrors db fuel course grid semId order = some e2) :
    e2 = [] ∨ ∃ ms, e2 = [PError.coreq ms] := by
  unfold coreqErrors at h
  cases ht : truthyStr course.corequisites with
  | none =>
    simp only [ht, Option.some.injEq] at h
    exact Or.inl h.symm
  | some p =>
    simp only [ht] at h
    cases hcp : getCoursesUpToSemester grid semId order with
    | none => simp only [hcp] at h; cases h
    | some completed =>
      simp only [hcp] at h
      cases hpt : parseCourseset db fuel p with
      | none => simp only [hpt] at h; cases h
      | some tree =>
        simp only [hpt] at h
        cases hvr : validate completed tree with
        | none => simp only [hvr] at h; cases h
        | some r =>
          simp only [hvr, Option.some.injEq] at h
          by_cases hs : r.satisfied = true
          · rw [if_pos hs] at h
            exact Or.inl h.symm
          · rw [if_neg hs] at h
            exact Or.inr ⟨r.missing, h.symm⟩

theorem exclErrors_shape (db : DB) (fuel : Nat) (course : Course) (code : String)
    (grid : GridState) (e3 : List PError)
    (h : exclErrors db fuel course code grid = some e3) :
    e3 = [] ∨ ∃ conf, e3 = [PError.excl conf] := by
  unfold exclErrors at h
  cases ht : truthyStr course.exclusions with
  | none =>
    simp only [ht, Option.some.injEq] at h
    exact Or.inl h.symm
  | some x =>
    simp only [ht] at h
    cases hpt : parseCourseset db fuel x with
    | none => simp only [hpt] at h; cases h
    | some tree =>
      simp only [hpt] at h
      cases hvr : validate ((getAllPlacedCourses grid).filter (fun c => c ≠ code)) tree with
      | none => simp only [hvr] at h; cases h
      | some r =>
        simp only [hvr] at h
        by_cases hs : r.satisfied = true
        · rw [if_pos hs] at h
          cases hcl : collectLeafCodes tree with
          | none => simp only [hcl] at h; cases h
          | some leaves =>
            simp only [hcl, Option.some.injEq] at h
            exact Or.inr ⟨_, h.symm⟩
        · rw [if_neg hs] at h
          simp only [Option.some.injEq] at h
          exact Or.inl h.symm

theorem prereqErrors_spec (db : DB) (fuel : Nat) (course : Course)
    (grid : GridState) (semId : String) (order : List String) (e1 : List PError)
    (h : prereqErrors db fuel course grid semId order = some e1) :
    e1 ≠ [] ↔ ∃ p completed tree r, truthyStr course.prerequisites = some p ∧
      getCoursesBeforeSemester grid semId order = some completed ∧
      parseCourseset db fuel p = some tree ∧ validate completed tree = some r ∧
      r.satisfied = false := by
  unfold prereqErrors at h
  cases ht : truthyStr course.prerequisites with
  | none =>
    simp only [ht, Option.some.injEq] at h
    subst h
    constructor
    · intro hne
      exact absurd rfl hne
    · rintro ⟨p, _, _, _, hp, -⟩
      cases hp
  | some p =>
    simp only [ht] at h
    cases hcp : getCoursesBeforeSemester grid semId order with
    | none => simp only [hcp] at h; cases h
    | some completed =>
      simp only [hcp] at h
      cases hpt : parseCourseset db fuel p with
      | none => simp only [hpt] at h; cases h
      | some tree =>
        simp only [hpt] at h
        cases hvr : validate completed tree with
        | none => simp only [hvr] at h; cases h
        | some r =>
          simp only [hvr, Option.some.injEq] at h
          subst h
          by_cases hs : r.satisfied = true
          · rw [if_pos hs]
            constructor
            · intro hne
              exact absurd rfl hne
            · rintro ⟨p2, c2, t2, r2, hp2, hc2, ht2, hv2, hs2⟩
              injection hp2 with hp2'
              subst hp2'
              injection hc2 with hc2'
              subst hc2'
              rw [hpt] at ht2
              injection ht2 with ht2'
              subst ht2'
              rw [hvr] at hv2
              injection hv2 with hv2'
              subst hv2'
              rw [hs] at hs2
              cases hs2
          · rw [if_neg hs]
            constructor
            · intro _
              exact ⟨p, completed, tree, r, rfl, rfl, hpt, hvr,
                Bool.not_eq_true r.satisfied ▸ hs⟩
            · intro _
              simp

theorem coreqErrors_spec (db : DB) (fuel : Nat) (course : Course)
    (grid : GridState) (semId : String) (order : List String) (e2 : List PError)
    (h : coreqErrors db fuel course grid semId order = some e2) :
    e2 ≠ [] ↔ ∃ p completed tree r, truthyStr course.corequisites = some p ∧
      getCoursesUpToSemester grid semId order = some completed ∧
      parseCourseset db fuel p = some tree ∧ validate completed tree = some r ∧
      r.satisfied = false := by
  unfold coreqErrors at h
  cases ht : truthyStr course.corequisites with
  | none =>
    simp only [ht, Option.some.injEq] at h
    subst h
    constructor
    · intro hne
      exact absurd rfl hne
    · rintro ⟨p, _, _, _, hp, -⟩
      cases hp
  | some p =>
    simp only [ht] at h
    cases hcp : getCoursesUpToSemester grid semId order with
    | none => simp only [hcp] at h; cases h
    | some completed =>
      simp only [hcp] at h
      cases hpt : parseCourseset db fuel p with
      | none => simp only [hpt] at h; cases h
      | some tree =>
        simp only [hpt] at h
        cases hvr : validate completed tree with
        | none => simp only [hvr] at h; cases h
        | some r =>
          simp only [hvr, Option.some.injEq] at h
          subst h
          by_cases hs : r.satisfied = true
          · rw [if_pos hs]
            constructor
            · intro hne
              exact absurd rfl hne
            · rintro ⟨p2, c2, t2, r2, hp2, hc2, ht2, hv2, hs2⟩
              injection hp2 with hp2'
              subst hp2'
              injection hc2 with hc2'
              subst hc2'
              rw [hpt] at ht2
              injection ht2 with ht2'
              subst ht2'
              rw [hvr] at hv2
              injection hv2 with hv2'
              subst hv2'
              rw [hs] at hs2
              cases hs2
          · rw [if_neg hs]
            constructor
            · intro _
              exact ⟨p, completed, tree, r, rfl, rfl, hpt, hvr,
                Bool.not_eq_true r.satisfied ▸ hs⟩
            · intro _
              simp

theorem exclErrors_spec (db : DB) (fuel : Nat) (course : Course) (code : String)
    (grid : GridState) (e3 : List PError) (x : String)
    (hx : truthyStr course.exclusions = some x)
    (h : exclErrors db fuel course code grid = some e3) :
    (e3 ≠ [] ↔ ∃ tree r, parseCourseset db fuel x = some tree ∧
      validate ((getAllPlacedCourses grid).filter (fun c => c ≠ code)) tree =
        some r ∧ r.satisfied = true) ∧
    (∀ conf, PError.excl conf ∈ e3 → ∃ tree leaves,
      parseCourseset db fuel x = some tree ∧ collectLeafCodes tree = some leaves ∧
      conf = leaves.filter (fun c =>
        ((getAllPlacedCourses grid).filter (fun c2 => c2 ≠ code)).contains c)) := by
  unfold exclErrors at h
  simp only [hx] at h
  cases hpt : parseCourseset db fuel x with
  | none => simp only [hpt] at h; cases h
  | some tree =>
    simp only [hpt] at h
    cases hvr : validate ((getAllPlacedCourses grid).filter (fun c => c ≠ code)) tree with
    | none => simp only [hvr] at h; cases h
    | some r =>
      simp only [hvr] at h
      by_cases hs : r.satisfied = true
      · rw [if_pos hs] at h
        cases hcl : collectLeafCodes tree with
        | none => simp only [hcl] at h; cases h
        | some leaves =>
          simp only [hcl, Option.some.injEq] at h
          subst h
          constructor
          · constructor
            · intro _
              exact ⟨tree, r, rfl, hvr, hs⟩
            · intro _
              simp
          · intro conf hconf
            simp only [List.mem_singleton] at hconf
            injection hconf with hconf'
            exact ⟨tree, leaves, rfl, hcl, hconf'⟩
      · rw [if_neg hs] at h
        simp only [Option.some.injEq] at h
        subst h
        constructor
        · constructor
          · intro hne
            exact absurd rfl hne
          · rintro ⟨t2, r2, ht2, hv2, hs2⟩
            injection ht2 with ht2'
            subst ht2'
            rw [hvr] at hv2
            injection hv2 with hv2'
            subst hv2'
            exact (hs hs2).elim
        · intro conf hconf
          cases hconf

theorem hasPrereqErr_parts (e1 e2 e3 : List PError) (b : Bool)
    (h1 : e1 = [] ∨ ∃ ms, e1 = [PError.prereq ms])
    (h2 : e2 = [] ∨ ∃ ms, e2 = [PError.coreq ms])
    (h3 : e3 = [] ∨ ∃ conf, e3 = [PError.excl conf]) :
    hasPrereqErr ⟨b, e1 ++ e2 ++ e3⟩ = true ↔ e1 ≠ [] := by
  unfold hasPrereqErr
  simp only [List.any_append, Bool.or_eq_true]
  rcases h2 with rfl | ⟨ms2, rfl⟩ <;> rcases h3 with rfl | ⟨c3, rfl⟩ <;>
    rcases h1 with rfl | ⟨ms1, rfl⟩ <;> simp [List.any_cons]

theorem hasCoreqErr_parts (e1 e2 e3 : List PError) (b : Bool)
    (h1 : e1 = [] ∨ ∃ ms, e1 = [PError.prereq ms])
    (h2 : e2 = [] ∨ ∃ ms, e2 = [PError.coreq ms])
    (h3 : e3 = [] ∨ ∃ conf, e3 = [PError.excl conf]) :
    hasCoreqErr ⟨b, e1 ++ e2 ++ e3⟩ = true ↔ e2 ≠ [] := by
  unfold hasCoreqErr
  simp only [List.any_append, Bool.or_eq_true]
  rcases h2 with rfl | ⟨ms2, rfl⟩ <;> rcases h3 with rfl | ⟨c3, rfl⟩ <;>
    rcases h1 with rfl | ⟨ms1, rfl⟩ <;> simp [List.any_cons]

theorem hasExclErr_parts (e1 e2 e3 : List PError) (b : Bool)
    (h1 : e1 = [] ∨ ∃ ms, e1 = [PError.prereq ms])
    (h2 : e2 = [] ∨ ∃ ms, e2 = [PError.coreq ms])
    (h3 : e3 = [] ∨ ∃ conf, e3 = [PError.excl conf]) :
    hasExclErr ⟨b, e1 ++ e2 ++ e3⟩ = true ↔ e3 ≠ [] := by
  unfold hasExclErr
  simp only [List.any_append, Bool.or_eq_true]
  rcases h2 with rfl | ⟨ms2, rfl⟩ <;> rcases h3 with rfl | ⟨c3, rfl⟩ <;>
    rcases h1 with rfl | ⟨ms1, rfl⟩ <;> simp [List.any_cons]

theorem exclErr_mem_parts (e1 e2 e3 : List PError) (conf : List String)
    (h1 : e1 = [] ∨ ∃ ms, e1 = [PError.prereq ms])
    (h2 : e2 = [] ∨ ∃ ms, e2 = [PError.coreq ms]) :
    PError.excl conf ∈ e1 ++ e2 ++ e3 ↔ PError.excl conf ∈ e3 := by
  simp only [List.mem_append]
  rcases h1 with rfl | ⟨ms1, rfl⟩ <;> rcases h2 with rfl | ⟨ms2, rfl⟩ <;> simp

/-! ## Claim C1: temporal semantics of prerequisite vs corequisite -/

/-- C1: with `semId` at index `k` of the semester order, the prerequisite
completed set is exactly the truthy codes of semesters at indices `0..k-1`
and the corequisite completed set those of indices `0..k`;
`validatePlacement` reports a prerequisite (resp. corequisite) error
precisely when the parsed tree evaluates unsatisfied over the before
(resp. up-to) set; hence a course placed in semester `k` only (and in no
earlier semester) lies in the corequisite set but never in the
prerequisite set. -/
theorem c1_temporal_semantics (grid : GridState) (order : List String)
    (semId : String) (k : Nat)
    (hidx : order.findIdx? (fun s => s == semId) = some k) :
    (∀ res, getCoursesBeforeSemester grid semId order = some res →
      ∀ c, c ∈ res ↔ ∃ i, i < k ∧ ∃ sem slots, order[i]? = some sem ∧
        lookupSem grid sem = some slots ∧ some c ∈ slots ∧ c ≠ "") ∧
    (∀ res, getCoursesUpToSemester grid semId order = some res →
      ∀ c, c ∈ res ↔ ∃ i, i ≤ k ∧ ∃ sem slots, order[i]? = some sem ∧
        lookupSem grid sem = some slots ∧ some c ∈ slots ∧ c ≠ "") ∧
    (∀ db fuel code course res, db.getCourse code = some course →
      validatePlacement db fuel (some code) semId grid order = some res →
      (hasPrereqErr res = true ↔ ∃ p completed tree r,
        truthyStr course.prerequisites = some p ∧
        getCoursesBeforeSemester grid semId order = some completed ∧
        parseCourseset db fuel p = some tree ∧ validate completed tree = some r ∧
        r.satisfied = false) ∧
      (hasCoreqErr res = true ↔ ∃ p completed tree r,
        truthyStr course.corequisites = some p ∧
        getCoursesUpToSemester grid semId order = some completed ∧
        parseCourseset db fuel p = some tree ∧ validate completed tree = some r ∧
        r.satisfied = false)) ∧
    (∀ c slots, lookupSem grid semId = some slots → some c ∈ slots → c ≠ "" →
      (∀ i sem slots2, i < k → order[i]? = some sem →
        lookupSem grid sem = some slots2 → some c ∉ slots2) →
      (∀ su, getCoursesUpToSemester grid semId order = some su → c ∈ su) ∧
      (∀ sb, getCoursesBeforeSemester grid semId order = some sb → c ∉ sb)) := by
  have hbefore : ∀ res, getCoursesBeforeSemester grid semId order = some res →
      ∀ c, c ∈ res ↔ ∃ i, i < k ∧ ∃ sem slots, order[i]? = some sem ∧
        lookupSem grid sem = some slots ∧ some c ∈ slots ∧ c ≠ "" := by
    intro res hres c
    unfold getCoursesBeforeSemester at hres
    rw [hidx] at hres
    rw [codesInSems_mem grid (order.take k) [] res hres c]
    simp only [List.not_mem_nil, false_or]
    constructor
    · rintro ⟨sem, hsem, slots, hl, hm, hne⟩
      obtain ⟨i, hik, hgi⟩ := (mem_take_iff_getElem order k sem).mp hsem
      exact ⟨i, hik, sem, slots, hgi, hl, hm, hne⟩
    · rintro ⟨i, hik, sem, slots, hgi, hl, hm, hne⟩
      exact ⟨sem, (mem_take_iff_getElem order k sem).mpr ⟨i, hik, hgi⟩,
        slots, hl, hm, hne⟩
  have hupto : ∀ res, getCoursesUpToSemester grid semId order = some res →
      ∀ c, c ∈ res ↔ ∃ i, i ≤ k ∧ ∃ sem slots, order[i]? = some sem ∧
        lookupSem grid sem = some slots ∧ some c ∈ slots ∧ c ≠ "" := by
    intro res hres c
    unfold getCoursesUpToSemester at hres
    rw [hidx] at hres
    rw [codesInSems_mem grid (order.take (k + 1)) [] res hres c]
    simp only [List.not_mem_nil, false_or]
    constructor
    · rintro ⟨sem, hsem, slots, hl, hm, hne⟩
      obtain ⟨i, hik, hgi⟩ := (mem_take_iff_getElem order (k + 1) sem).mp hsem
      exact ⟨i, by omega, sem, slots, hgi, hl, hm, hne⟩
    · rintro ⟨i, hik, sem, slots, hgi, hl, hm, hne⟩
      exact ⟨sem, (mem_take_iff_getElem order (k + 1) sem).mpr
        ⟨i, by omega, hgi⟩, slots, hl, hm, hne⟩
  refine ⟨hbefore, hupto, ?_, ?_⟩
  · intro db fuel code course res hc hv
    obtain ⟨e1, e2, e3, h1, h2, h3, hres⟩ :=
      validatePlacement_parts db fuel code semId grid order course res hc hv
    subst hres
    constructor
    · rw [hasPrereqErr_parts e1 e2 e3 _ (prereqErrors_shape _ _ _ _ _ _ _ h1)
        (coreqErrors_shape _ _ _ _ _ _ _ h2) (exclErrors_shape _ _ _ _ _ _ h3)]
      exact prereqErrors_spec db fuel course grid semId order e1 h1
    · rw [hasCoreqErr_parts e1 e2 e3 _ (prereqErrors_shape _ _ _ _ _ _ _ h1)
        (coreqErrors_shape _ _ _ _ _ _ _ h2) (exclErrors_shape _ _ _ _ _ _ h3)]
      exact coreqErrors_spec db fuel course grid semId order e2 h2
  · intro c slots hl hm hne hnoearly
    obtain ⟨hklen, hpk, -⟩ := List.findIdx?_eq_some_iff_getElem.mp hidx
    have hsemk : order[k] = semId := by simpa using hpk
    constructor
    · intro su hsu
      rw [hupto su hsu c]
      refine ⟨k, le_rfl, semId, slots, ?_, hl, hm, hne⟩
      rw [List.getElem?_eq_getElem hklen, hsemk]
    · intro sb hsb hcsb
      rw [hbefore sb hsb c] at hcsb
      obtain ⟨i, hik, sem, slots2, hgi, hl2, hm2, -⟩ := hcsb
      exact hnoearly i sem slots2 hik hgi hl2 hm2

/-- Witness for C1: a two-semester plan with the prerequisite placed in
the first semester and the dependent course in the second. -/
theorem c1_temporal_semantics_witness :
    ((["f1", "w1"] : List String).findIdx? (fun s => s == "w1") = some 1) ∧
    validatePlacement
      ⟨fun c => if c = "APS112H1" then
          some ⟨"APS112H1", some "APS112H1_p1", none, none⟩ else none,
        fun i => if i = "APS112H1_p1" then some "APS111H1" else none⟩
      2 (some "APS112H1") "w1"
      [("f1", [some "APS111H1"]), ("w1", [some "APS112H1"])] ["f1", "w1"] =
      some ⟨true, []⟩ ∧
    (hasPrereqErr ⟨true, []⟩ = true ↔ ∃ p completed tree r,
      truthyStr (Course.mk "APS112H1" (some "APS112H1_p1") none none).prerequisites =
        some p ∧
      getCoursesBeforeSemester
        [("f1", [some "APS111H1"]), ("w1", [some "APS112H1"])] "w1" ["f1", "w1"] =
        some completed ∧
      parseCourseset
        ⟨fun c => if c = "APS112H1" then
            some ⟨"APS112H1", some "APS112H1_p1", none, none⟩ else none,
          fun i => if i = "APS112H1_p1" then some "APS111H1" else none⟩ 2 p =
        some tree ∧
      validate completed tree = some r ∧ r.satisfied = false) ∧
    (∀ su, getCoursesUpToSemester
        [("f1", [some "APS111H1"]), ("w1", [some "APS112H1"])] "w1" ["f1", "w1"] =
        some su → "APS112H1" ∈ su) ∧
    (∀ sb, getCoursesBeforeSemester
        [("f1", [some "APS111H1"]), ("w1", [some "APS112H1"])] "w1" ["f1", "w1"] =
        some sb → "APS112H1" ∉ sb) := by
  have h := c1_temporal_semantics
    [("f1", [some "APS111H1"]), ("w1", [some "APS112H1"])] ["f1", "w1"] "w1" 1 rfl
  have hnoearly : ∀ i sem slots2, i < 1 →
      (["f1", "w1"] : List String)[i]? = some sem →
      lookupSem [("f1", [some "APS111H1"]), ("w1", [some "APS112H1"])] sem =
        some slots2 →
      some "APS112H1" ∉ slots2 := by
    intro i sem slots2 hi hsem hsl
    have hi0 : i = 0 := by omega
    subst hi0
    simp only [List.getElem?_cons_zero, Option.some.injEq] at hsem
    subst hsem
    have hval : lookupSem [("f1", [some "APS111H1"]), ("w1", [some "APS112H1"])]
        "f1" = some [some "APS111H1"] := rfl
    rw [hval] at hsl
    injection hsl with hsl'
    subst hsl'
    decide
  have hfour := h.2.2.2 "APS112H1" [some "APS112H1"] rfl (by decide) (by decide)
    hnoearly
  exact ⟨rfl, rfl,
    (h.2.2.1 ⟨fun c => if c = "APS112H1" then
        some ⟨"APS112H1", some "APS112H1_p1", none, none⟩ else none,
      fun i => if i = "APS112H1_p1" then some "APS111H1" else none⟩ 2 "APS112H1"
      ⟨"APS112H1", some "APS112H1_p1", none, none⟩ ⟨true, []⟩ rfl rfl).1,
    hfour.1, hfour.2⟩

/-! ## Claim C2: exclusion semantics -/

/-- C2: `validatePlacement` reports an Exclusion error exactly when the
exclusion tree evaluates satisfied over the set of all placed codes with
the course's own code removed; the error detail is exactly the exclusion
tree's leaf codes present in that reduced set; and for a single-course
exclusion (X excludes Y) the error appears iff Y is in the reduced set and
removing Y's sole slot from the grid clears the error on revalidation. -/
theorem c2_exclusion_semantics (db : DB) (fuel : Nat) (code : String)
    (course : Course) (x : String) (grid : GridState) (semId : String)
    (order : List String) (res : VPRes)
    (hc : db.getCourse code = some course)
    (hx : truthyStr course.exclusions = some x)
    (hv : validatePlacement db fuel (some code) semId grid order = some res) :
    (hasExclErr res = true ↔ ∃ tree r, parseCourseset db fuel x = some tree ∧
      validate ((getAllPlacedCourses grid).filter (fun c => c ≠ code)) tree =
        some r ∧ r.satisfied = true) ∧
    (∀ conf, PError.excl conf ∈ res.errors → ∃ tree leaves,
      parseCourseset db fuel x = some tree ∧ collectLeafCodes tree = some leaves ∧
      conf = leaves.filter (fun c =>
        ((getAllPlacedCourses grid).filter (fun c2 => c2 ≠ code)).contains c)) ∧
    (∀ y, parseCourseset db fuel x = some (.course y) →
      (hasExclErr res = true ↔
        y ∈ (getAllPlacedCourses grid).filter (fun c => c ≠ code)) ∧
      (∀ conf, PError.excl conf ∈ res.errors → conf = [y]) ∧
      (∀ sem slot slots grid' res', WfGrid grid →
        lookupSem grid sem = some slots →
        (∀ s j, slotValue grid s j = some (some y) → s = sem ∧ j = slot) →
        removeCourse grid sem slot = some grid' →
        validatePlacement db fuel (some code) semId grid' order = some res' →
        hasExclErr res' = false)) := by
  obtain ⟨e1, e2, e3, h1, h2, h3, hres⟩ :=
    validatePlacement_parts db fuel code semId grid order course res hc hv
  subst hres
  have sh1 := prereqErrors_shape _ _ _ _ _ _ _ h1
  have sh2 := coreqErrors_shape _ _ _ _ _ _ _ h2
  have sh3 := exclErrors_shape _ _ _ _ _ _ h3
  have hspec := exclErrors_spec db fuel course code grid e3 x hx h3
  have hiff : hasExclErr ⟨(e1 ++ e2 ++ e3).isEmpty, e1 ++ e2 ++ e3⟩ = true ↔
      e3 ≠ [] := hasExclErr_parts e1 e2 e3 _ sh1 sh2 sh3
  have hmem : ∀ conf, PError.excl conf ∈ e1 ++ e2 ++ e3 ↔ PError.excl conf ∈ e3 :=
    fun conf => exclErr_mem_parts e1 e2 e3 conf sh1 sh2
  refine ⟨hiff.trans hspec.1, ?_, ?_⟩
  · intro conf hconf
    exact hspec.2 conf ((hmem conf).mp hconf)
  · intro y hy
    have hsingle : hasExclErr ⟨(e1 ++ e2 ++ e3).isEmpty, e1 ++ e2 ++ e3⟩ = true ↔
        y ∈ (getAllPlacedCourses grid).filter (fun c => c ≠ code) := by
      rw [hiff.trans hspec.1]
      constructor
      · rintro ⟨tree, r, hpt, hvr, hs⟩
        rw [hy] at hpt
        injection hpt with hpt'
        subst hpt'
        have hvc : validate ((getAllPlacedCourses grid).filter (fun c => c ≠ code))
            (.course y) = some (if ((getAllPlacedCourses grid).filter
              (fun c => c ≠ code)).contains y then ⟨true, []⟩
              else ⟨false, [.courseM y]⟩) := rfl
        rw [hvc] at hvr
        injection hvr with hvr'
        subst hvr'
        by_cases hcon : ((getAllPlacedCourses grid).filter
            (fun c => c ≠ code)).contains y = true
        · exact List.elem_iff.mp hcon
        · rw [if_neg hcon] at hs
          cases hs
      · intro hmem2
        have hcon : ((getAllPlacedCourses grid).filter
            (fun c => c ≠ code)).contains y = true := List.elem_iff.mpr hmem2
        refine ⟨.course y, ⟨true, []⟩, hy, ?_, rfl⟩
        have hvc : validate ((getAllPlacedCourses grid).filter (fun c => c ≠ code))
            (.course y) = some (if ((getAllPlacedCourses grid).filter
              (fun c => c ≠ code)).contains y then ⟨true, []⟩
              else ⟨false, [.courseM y]⟩) := rfl
        rw [hvc, hcon, if_pos rfl]
    refine ⟨hsingle, ?_, ?_⟩
    · intro conf hconf
      obtain ⟨tree, leaves, hpt, hcl, hconf'⟩ :=
        hspec.2 conf ((hmem conf).mp hconf)
      rw [hy] at hpt
      injection hpt with hpt'
      subst hpt'
      have hleaves : leaves = [y] := by
        have : collectLeafCodes (.course y) = some [y] := rfl
        rw [this] at hcl
        injection hcl with h'
        exact h'.symm
      subst hleaves
      have hhas : hasExclErr ⟨(e1 ++ e2 ++ e3).isEmpty, e1 ++ e2 ++ e3⟩ = true := by
        rw [hiff]
        intro he3
        have hconf2 : PError.excl conf ∈ e3 := (hmem conf).mp hconf
        rw [he3] at hconf2
        cases hconf2
      have hymem := hsingle.mp hhas
      have hcon : ((getAllPlacedCourses grid).filter
          (fun c2 => c2 ≠ code)).contains y = true := List.elem_iff.mpr hymem
      rw [hconf', List.filter_cons, hcon, if_pos rfl, List.filter_nil]
    · intro sem slot slots grid' res' hw hl honly hrem hres'
      have hgrid' : grid' = setSem grid sem (slots.set slot none) := by
        unfold removeCourse at hrem
        rw [hl] at hrem
        injection hrem with h'
        exact h'.symm
      subst hgrid'
      have hnot := not_placed_after_remove grid sem slot slots y hl hw honly
      obtain ⟨e1', e2', e3', h1', h2', h3', hres2⟩ :=
        validatePlacement_parts db fuel code semId _ order course res' hc hres'
      subst hres2
      have sh1' := prereqErrors_shape _ _ _ _ _ _ _ h1'
      have sh2' := coreqErrors_shape _ _ _ _ _ _ _ h2'
      have sh3' := exclErrors_shape _ _ _ _ _ _ h3'
      have hspec' := exclErrors_spec db fuel course code
        (setSem grid sem (slots.set slot none)) e3' x hx h3'
      have hiff' := hasExclErr_parts e1' e2' e3' ((e1' ++ e2' ++ e3').isEmpty)
        sh1' sh2' sh3'
      cases hfe : hasExclErr ⟨(e1' ++ e2' ++ e3').isEmpty, e1' ++ e2' ++ e3'⟩ with
      | false => rfl
      | true =>
        exfalso
        obtain ⟨tree, r, hpt, hvr, hs⟩ := hspec'.1.mp (hiff'.mp hfe)
        rw [hy] at hpt
        injection hpt with hpt'
        subst hpt'
        have hnmem : y ∉ (getAllPlacedCourses
            (setSem grid sem (slots.set slot none))).filter (fun c => c ≠ code) :=
          fun hmem2 => hnot (List.mem_filter.mp hmem2).1
        have hcon : ((getAllPlacedCourses
            (setSem grid sem (slots.set slot none))).filter
            (fun c => c ≠ code)).contains y = false := by
          cases hcontains : ((getAllPlacedCourses
              (setSem grid sem (slots.set slot none))).filter
              (fun c => c ≠ code)).contains y with
          | false => rfl
          | true => exact absurd (List.elem_iff.mp hcontains) hnmem
        have hvc : validate ((getAllPlacedCourses
            (setSem grid sem (slots.set slot none))).filter (fun c => c ≠ code))
            (.course y) = some (if ((getAllPlacedCourses
              (setSem grid sem (slots.set slot none))).filter
              (fun c => c ≠ code)).contains y then ⟨true, []⟩
              else ⟨false, [.courseM y]⟩) := rfl
        rw [hvc, hcon] at hvr
        injection hvr with hvr'
        subst hvr'
        cases hs

/-- Witness for C2: ECE430H1 excludes ECE530H1; placing both yields the
exclusion error listing ECE530H1, and removing ECE530H1's slot clears it
on revalidation. -/
theorem c2_exclusion_semantics_witness :
    validatePlacement
      ⟨fun c => if c = "ECE430H1" then
          some ⟨"ECE430H1", none, none, some "ECE430H1_e1"⟩ else none,
        fun i => if i = "ECE430H1_e1" then some "ECE530H1" else none⟩
      2 (some "ECE430H1") "f1" [("f1", [some "ECE430H1", some "ECE530H1"])] ["f1"] =
      some ⟨false, [.excl ["ECE530H1"]]⟩ ∧
    (hasExclErr ⟨false, [.excl ["ECE530H1"]]⟩ = true ↔
      "ECE530H1" ∈ (getAllPlacedCourses
        [("f1", [some "ECE430H1", some "ECE530H1"])]).filter
        (fun c => c ≠ "ECE430H1")) ∧
    removeCourse [("f1", [some "ECE430H1", some "ECE530H1"])] "f1" 1 =
      some [("f1", [some "ECE430H1", none])] ∧
    validatePlacement
      ⟨fun c => if c = "ECE430H1" then
          some ⟨"ECE430H1", none, none, some "ECE430H1_e1"⟩ else none,
        fun i => if i = "ECE430H1_e1" then some "ECE530H1" else none⟩
      2 (some "ECE430H1") "f1" [("f1", [some "ECE430H1", none])] ["f1"] =
      some ⟨true, []⟩ ∧
    hasExclErr ⟨true, []⟩ = false := by
  have h := c2_exclusion_semantics
    ⟨fun c => if c = "ECE430H1" then
        some ⟨"ECE430H1", none, none, some "ECE430H1_e1"⟩ else none,
      fun i => if i = "ECE430H1_e1" then some "ECE530H1" else none⟩
    2 "ECE430H1" ⟨"ECE430H1", none, none, some "ECE430H1_e1"⟩ "ECE430H1_e1"
    [("f1", [some "ECE430H1", some "ECE530H1"])] "f1" ["f1"]
    ⟨false, [.excl ["ECE530H1"]]⟩ rfl rfl rfl
  have honly : ∀ s j, slotValue [("f1", [some "ECE430H1", some "ECE530H1"])] s j =
      some (some "ECE530H1") → s = "f1" ∧ j = 1 := by
    intro s j hsj
    unfold slotValue at hsj
    by_cases hs : s = "f1"
    · subst hs
      have hl : lookupSem [("f1", [some "ECE430H1", some "ECE530H1"])] "f1" =
          some [some "ECE430H1", some "ECE530H1"] := rfl
      rw [hl] at hsj
      simp only [Option.some_bind] at hsj
      refine ⟨rfl, ?_⟩
      cases j with
      | zero => exact absurd hsj (by decide)
      | succ j2 =>
        cases j2 with
        | zero => rfl
        | succ j3 =>
          have hnone : ([some "ECE430H1", some "ECE530H1"] : Slots)[j3 + 2]? =
              none := by
            rw [List.getElem?_eq_none]
            simp
          rw [hnone] at hsj
          cases hsj
    · have hb : ("f1" == s) = false := by
        simp only [beq_eq_false_iff_ne, ne_eq]
        exact fun e => hs e.symm
      rw [lookupSem_cons_ne _ _ _ _ hb] at hsj
      cases hsj
  refine ⟨rfl, (h.2.2 "ECE530H1" rfl).1, rfl, rfl, ?_⟩
  exact (h.2.2 "ECE530H1" rfl).2.2 "f1" 1 [some "ECE430H1", some "ECE530H1"]
    [("f1", [some "ECE430H1", none])] ⟨true, []⟩ (by simp [WfGrid]) rfl honly rfl rfl

/-! ## Result-map lemmas for validateAll -/

theorem hasKey_eq_isSome (m : ResultMap) (k : Option String) :
    hasKey m k = (lookupKey m k).isSome := by
  induction m with
  | nil => rfl
  | cons p rest ih =>
    unfold hasKey lookupKey
    simp only [List.any_cons, List.find?_cons]
    cases hb : (p.1 == k) with
    | true => simp
    | false =>
      simp only [Bool.false_or]
      exact ih

theorem lookupKey_cons (q : Option String × VPRes) (rest : ResultMap)
    (k2 : Option String) :
    lookupKey (q :: rest) k2 =
      if (q.1 == k2) = true then some q.2 else lookupKey rest k2 := by
  by_cases hb : (q.1 == k2) = true
  · rw [if_pos hb]
    unfold lookupKey
    rw [List.find?_cons_of_pos (p := fun x : Option String × VPRes => x.1 == k2) _ hb]
    rfl
  · rw [if_neg hb]
    unfold lookupKey
    rw [List.find?_cons_of_neg (p := fun x : Option String × VPRes => x.1 == k2) _ hb]

theorem lookupKey_mapUpdate_ne (m : ResultMap) (k : Option String) (v : VPRes)
    (k2 : Option String) (h : k2 ≠ k) :
    lookupKey (m.map (fun p => if p.1 == k then (k, v) else p)) k2 =
      lookupKey m k2 := by
  induction m with
  | nil => rfl
  | cons q t ih =>
    simp only [List.map_cons]
    by_cases hq : (q.1 == k) = true
    · rw [if_pos hq, lookupKey_cons, lookupKey_cons]
      have hkv2 : (((k, v) : Option String × VPRes).1 == k2) = false := by
        simp only [beq_eq_false_iff_ne, ne_eq]
        exact fun e => h e.symm
      have hq2 : (q.1 == k2) = false := by
        have hq' : q.1 = k := by simpa using hq
        simp only [beq_eq_false_iff_ne, ne_eq, hq']
        exact fun e => h e.symm
      rw [hkv2, hq2]
      simp only [Bool.false_eq_true, if_false]
      exact ih
    · rw [if_neg hq, lookupKey_cons, lookupKey_cons]
      by_cases hq2 : (q.1 == k2) = true
      · rw [if_pos hq2, if_pos hq2]
      · rw [if_neg hq2, if_neg hq2]
        exact ih

theorem lookupKey_mapUpdate_eq (m : ResultMap) (k : Option String) (v : VPRes)
    (h : m.any (fun p => p.1 == k) = true) :
    lookupKey (m.map (fun p => if p.1 == k then (k, v) else p)) k = some v := by
  induction m with
  | nil => cases h
  | cons q t ih =>
    simp only [List.any_cons, Bool.or_eq_true] at h
    simp only [List.map_cons]
    by_cases hq : (q.1 == k) = true
    · rw [if_pos hq, lookupKey_cons,
        if_pos (show (((k, v) : Option String × VPRes).1 == k) = true by simp)]
    · rw [if_neg hq, lookupKey_cons, if_neg hq]
      exact ih (h.resolve_left hq)

theorem lookupKey_append_eq (m : ResultMap) (k : Option String) (v : VPRes)
    (h : m.any (fun p => p.1 == k) = false) :
    lookupKey (m ++ [(k, v)]) k = some v := by
  induction m with
  | nil =>
    rw [List.nil_append, lookupKey_cons,
      if_pos (show (((k, v) : Option String × VPRes).1 == k) = true by simp)]
  | cons q t ih =>
    simp only [List.any_cons, Bool.or_eq_false_iff] at h
    rw [List.cons_append, lookupKey_cons, if_neg (by simp [h.1])]
    exact ih h.2

theorem lookupKey_append_ne (m : ResultMap) (k : Option String) (v : VPRes)
    (k2 : Option String) (h : k2 ≠ k) :
    lookupKey (m ++ [(k, v)]) k2 = lookupKey m k2 := by
  induction m with
  | nil =>
    rw [List.nil_append, lookupKey_cons]
    have : (((k, v) : Option String × VPRes).1 == k2) = false := by
      simp only [beq_eq_false_iff_ne, ne_eq]
      exact fun e => h e.symm
    rw [this]
    simp only [Bool.false_eq_true, if_false]
  | cons q t ih =>
    rw [List.cons_append, lookupKey_cons, lookupKey_cons]
    by_cases hq2 : (q.1 == k2) = true
    · rw [if_pos hq2, if_pos hq2]
    · rw [if_neg hq2, if_neg hq2]
      exact ih

theorem lookupKey_mapSet (m : ResultMap) (k : Option String) (v : VPRes)
    (k2 : Option String) :
    lookupKey (mapSet m k v) k2 = if k2 = k then some v else lookupKey m k2 := by
  unfold mapSet
  by_cases hany : (m.any (fun p => p.1 == k)) = true
  · rw [if_pos hany]
    by_cases hk : k2 = k
    · subst hk
      rw [if_pos rfl]
      exact lookupKey_mapUpdate_eq m k2 v hany
    · rw [if_neg hk]
      exact lookupKey_mapUpdate_ne m k v k2 hk
  · rw [if_neg hany]
    by_cases hk : k2 = k
    · subst hk
      rw [if_pos rfl]
      exact lookupKey_append_eq m k2 v (Bool.eq_false_iff.mpr hany)
    · rw [if_neg hk]
      exact lookupKey_append_ne m k v k2 hk

theorem validateSlots_spec (db : DB) (fuel : Nat) (grid : GridState)
    (order : List String) (semId : String) (slots : List (Option String))
    (m m' : ResultMap) (h : validateSlots db fuel grid order semId slots m = some m') :
    (∀ k, k ∉ slots → lookupKey m' k = lookupKey m k) ∧
    (∀ k, k ∈ slots → ∃ r, validatePlacement db fuel k semId grid order = some r ∧
      lookupKey m' k = some r) := by
  induction slots generalizing m with
  | nil =>
    rw [validateSlots] at h
    injection h with h'
    subst h'
    exact ⟨fun _ _ => rfl, fun k hk => absurd hk (List.not_mem_nil k)⟩
  | cons c rest ih =>
    rw [validateSlots] at h
    cases hv : validatePlacement db fuel c semId grid order with
    | none => simp only [hv] at h; cases h
    | some r =>
      simp only [hv] at h
      obtain ⟨ih1, ih2⟩ := ih (mapSet m c r) h
      constructor
      · intro k hk
        have hkc : k ≠ c := fun e => hk (e ▸ List.mem_cons_self c rest)
        have hkrest : k ∉ rest := fun e => hk (List.mem_cons_of_mem c e)
        rw [ih1 k hkrest, lookupKey_mapSet, if_neg hkc]
      · intro k hk
        rcases List.mem_cons.mp hk with rfl | hkrest
        · by_cases hkrest2 : k ∈ rest
          · exact ih2 k hkrest2
          · refine ⟨r, hv, ?_⟩
            rw [ih1 k hkrest2, lookupKey_mapSet, if_pos rfl]
        · exact ih2 k hkrest

theorem validateSems_spec (db : DB) (fuel : Nat) (grid : GridState)
    (order : List String) (sems : List String) (m m' : ResultMap)
    (h : validateSems db fuel grid order sems m = some m') :
    (∀ k, (∀ sem ∈ sems, ∀ slots, lookupSem grid sem = some slots → k ∉ slots) →
      lookupKey m' k = lookupKey m k) ∧
    (∀ k sem slots, sem ∈ sems → lookupSem grid sem = some slots → k ∈ slots →
      ∃ sem2 slots2, sem2 ∈ sems ∧ lookupSem grid sem2 = some slots2 ∧
        k ∈ slots2 ∧ ∃ r, validatePlacement db fuel k sem2 grid order = some r ∧
        lookupKey m' k = some r) := by
  induction sems generalizing m with
  | nil =>
    rw [validateSems] at h
    injection h with h'
    subst h'
    exact ⟨fun _ _ => rfl, fun k sem slots hmem => absurd hmem (List.not_mem_nil sem)⟩
  | cons sem rest ih =>
    rw [validateSems] at h
    cases hl : lookupSem grid sem with
    | none => simp only [hl] at h; cases h
    | some slots =>
      simp only [hl] at h
      cases hs : validateSlots db fuel grid order sem slots m with
      | none => simp only [hs] at h; cases h
      | some m2 =>
        simp only [hs] at h
        obtain ⟨sl1, sl2⟩ := validateSlots_spec db fuel grid order sem slots m m2 hs
        obtain ⟨ih1, ih2⟩ := ih m2 h
        constructor
        · intro k hnone
          rw [ih1 k (fun s hsm => hnone s (List.mem_cons_of_mem _ hsm))]
          exact sl1 k (hnone sem (List.mem_cons_self _ _) slots hl)
        · intro k sem0 slots0 hmem0 hl0 hk0
          by_cases hrest : ∃ s2 ∈ rest, ∃ sl0, lookupSem grid s2 = some sl0 ∧ k ∈ sl0
          · obtain ⟨s2, hs2, sl0, hls0, hks0⟩ := hrest
            obtain ⟨sem2, slots2, hmem2, hl2, hk2, r, hv, heq⟩ :=
              ih2 k s2 sl0 hs2 hls0 hks0
            exact ⟨sem2, slots2, List.mem_cons_of_mem _ hmem2, hl2, hk2, r, hv, heq⟩
          · have hstay : lookupKey m' k = lookupKey m2 k :=
              ih1 k (fun s hsm sl0 hls0 hk => hrest ⟨s, hsm, sl0, hls0, hk⟩)
            rcases List.mem_cons.mp hmem0 with rfl | hmem0r
            · rw [hl] at hl0
              injection hl0 with e
              subst e
              obtain ⟨r, hv, heq⟩ := sl2 k hk0
              exact ⟨sem0, slots, List.mem_cons_self _ _, hl, hk0, r, hv,
                hstay.trans heq⟩
            · exact absurd ⟨sem0, hmem0r, slots0, hl0, hk0⟩ hrest

/-! ## Claim C8: validateAll result map -/

/-- C8 counterexample: on a grid with a single empty semester,
`validateAll` produces a map with the JS `null` key (every slot value,
including empty slots, is passed to `validatePlacement` and written to the
map), contradicting "empty slots contribute no entry". -/
theorem c8_null_key_counterexample :
    validateAll ⟨fun _ => none, fun _ => none⟩ 1 (initSemesters ["fall-1"])
      ["fall-1"] = some [(none, ⟨true, []⟩)] ∧
    hasKey [((none : Option String), (⟨true, []⟩ : VPRes))] none = true :=
  ⟨rfl, rfl⟩

/-- C8 amended: a successful `validateAll` yields a map whose keys are
exactly the slot values (course codes, and the `null` key as soon as some
listed semester has an empty slot) of the semesters in the order, each key
mapped to the `validatePlacement` result for a semester whose slots
contain it (the unique such semester when each code occupies at most one
slot). -/
theorem c8_validateAll_semantics (db : DB) (fuel : Nat) (grid : GridState)
    (order : List String) (m : ResultMap)
    (h : validateAll db fuel grid order = some m) :
    (∀ k, hasKey m k = true ↔ ∃ sem ∈ order, ∃ slots,
      lookupSem grid sem = some slots ∧ k ∈ slots) ∧
    (∀ k v, lookupKey m k = some v → ∃ sem ∈ order, ∃ slots,
      lookupSem grid sem = some slots ∧ k ∈ slots ∧
      validatePlacement db fuel k sem grid order = some v) := by
  unfold validateAll at h
  obtain ⟨s1, s2⟩ := validateSems_spec db fuel grid order order [] m h
  constructor
  · intro k
    rw [hasKey_eq_isSome]
    constructor
    · intro hsome
      by_contra hno
      push_neg at hno
      rw [s1 k hno] at hsome
      simp [lookupKey] at hsome
    · rintro ⟨sem, hsem, slots, hl, hk⟩
      obtain ⟨sem2, slots2, -, -, -, r, -, heq⟩ := s2 k sem slots hsem hl hk
      rw [heq]
      rfl
  · intro k v hkv
    by_cases hocc : ∃ sem ∈ order, ∃ slots, lookupSem grid sem = some slots ∧
        k ∈ slots
    · obtain ⟨sem, hsem, slots, hl, hk⟩ := hocc
      obtain ⟨sem2, slots2, hsem2, hl2, hk2, r, hv, heq⟩ :=
        s2 k sem slots hsem hl hk
      rw [heq] at hkv
      injection hkv with e
      subst e
      exact ⟨sem2, hsem2, slots2, hl2, hk2, hv⟩
    · push_neg at hocc
      rw [s1 k hocc] at hkv
      cases hkv

/-- Witness for C8 at a one-course grid. -/
theorem c8_validateAll_semantics_witness :
    validateAll ⟨fun _ => none, fun _ => none⟩ 1
      [("f1", [some "AA101H1", none])] ["f1"] =
      some [(some "AA101H1", ⟨true, []⟩), (none, ⟨true, []⟩)] ∧
    (hasKey [((some "AA101H1" : Option String), (⟨true, []⟩ : VPRes)),
        (none, ⟨true, []⟩)] (some "AA101H1") = true ↔
      ∃ sem ∈ ["f1"], ∃ slots, lookupSem [("f1", [some "AA101H1", none])] sem =
        some slots ∧ (some "AA101H1" : Option String) ∈ slots) ∧
    (∀ k v, lookupKey [((some "AA101H1" : Option String), (⟨true, []⟩ : VPRes)),
        (none, ⟨true, []⟩)] k = some v → ∃ sem ∈ ["f1"], ∃ slots,
      lookupSem [("f1", [some "AA101H1", none])] sem = some slots ∧ k ∈ slots ∧
      validatePlacement ⟨fun _ => none, fun _ => none⟩ 1 k sem
        [("f1", [some "AA101H1", none])] ["f1"] = some v) := by
  have h := c8_validateAll_semantics ⟨fun _ => none, fun _ => none⟩ 1
    [("f1", [some "AA101H1", none])] ["f1"]
    [(some "AA101H1", ⟨true, []⟩), (none, ⟨true, []⟩)] rfl
  exact ⟨rfl, h.1 (some "AA101H1"), h.2⟩

end CourseTool
